import Mathlib

/-!
# Gaussian distribution model (libshogun, `distributions/Gaussian.cpp`)

A shallow embedding of `CGaussian` and a verification of its specification.

Conventions of the embedding.

* `float64_t` is embedded as `ℝ`: all arithmetic is exact.
* A heap buffer (`float64_t*`) is a `List ℝ`; a read at index `k` is in bounds
  when `0 ≤ k < length`, and a read out of bounds is the fault `out_of_bounds`.
* `int32_t` is embedded as `Int`, and every `int32_t` product or sum the source
  forms (`dim*dim`, `i*dim+i`, `m_dim*(m_dim+1)`) is wrapped to 32 bits, two's
  complement (`wrap32`).  A byte count is formed in `size_t`, taken 64 bits wide.
* A method is a function of the object state that returns an outcome together
  with the state it leaves behind, so that the state left by a method that
  raised can be inspected.
-/

open scoped BigOperators Matrix

namespace Shogun

/-- What can stop a method: a failed `ASSERT`, an `SG_ERROR`, a null feature
source, a read outside a buffer, an allocation of negative size. -/
inductive Fault where
  | assertion
  | sg_error
  | null_pointer
  | out_of_bounds
  | bad_alloc
  deriving DecidableEq, Repr

/-- A method body over the object state `σ`: an outcome, and the state left. -/
def Method (σ α : Type) : Type := σ → Except Fault α × σ

/-- Normal return of `a`, state untouched. -/
def Method.ret {σ α : Type} (a : α) : Method σ α := fun s => (Except.ok a, s)

/-- Raise `e`: the state is left as it is at the point of the raise. -/
def Method.raise {σ α : Type} (e : Fault) : Method σ α := fun s => (Except.error e, s)

/-- Sequencing: a raise in the first part skips the second. -/
def Method.seq {σ α β : Type} (m : Method σ α) (f : α → Method σ β) : Method σ β :=
  fun s => match m s with
    | (Except.ok a, s1) => f a s1
    | (Except.error e, s1) => (Except.error e, s1)

instance {σ : Type} : Monad (Method σ) where
  pure := Method.ret
  bind := Method.seq

/-- Read the object state. -/
def Method.get {σ : Type} : Method σ σ := fun s => (Except.ok s, s)

/-- Assign to fields of the object. -/
def Method.assign {σ : Type} (f : σ → σ) : Method σ Unit := fun s => (Except.ok (), f s)

/-- Run a computation that does not touch the object. -/
def Method.lift {σ α : Type} (x : Except Fault α) : Method σ α := fun s => (x, s)

/-! ## Machine integers -/

/-- A C `int32_t` result: the integer wrapped to 32 bits, two's complement. -/
def wrap32 (x : Int) : Int := (x + 2 ^ 31) % 2 ^ 32 - 2 ^ 31

/-- The number of `float64_t` entries in `sizeof(float64_t)*dim*dim` bytes: the
`int` operand is converted to `size_t` and the product is formed there, modulo
`2^64`. -/
def size_t_square (dim : Int) : Nat :=
  ((8 * (dim % 2 ^ 64) * (dim % 2 ^ 64)) % 2 ^ 64 / 8).toNat

/-! ## Buffers -/

/-- The read `buf[k]` for a C `int` index `k`. -/
def read (buf : List ℝ) (k : Int) : Except Fault ℝ :=
  if k < 0 then Except.error Fault.out_of_bounds
  else match buf[k.toNat]? with
    | some v => Except.ok v
    | none => Except.error Fault.out_of_bounds

/-- The pair `new float64_t[n]` then `memcpy(dst, src, sizeof(float64_t)*n)`:
a fresh buffer holding the first `n` entries of `src`. -/
def new_memcpy (src : List ℝ) (n : Int) : Except Fault (List ℝ) :=
  if n < 0 then Except.error Fault.bad_alloc
  else if src.length < n.toNat then Except.error Fault.out_of_bounds
  else Except.ok (src.take n.toNat)

/-- The pair `new float64_t[cells]` then `memcpy(dst, src, bytes)` with `bytes`
holding `count` entries: a fresh buffer of `cells` cells whose first `count`
cells hold the first `count` entries of `src`.  A negative `cells` is a failed
allocation; a `count` beyond the fresh buffer or beyond `src` is an access out
of bounds.  The cells not written hold an unspecified value, taken as 0. -/
def new_memcpy_sized (src : List ℝ) (cells : Int) (count : Nat) : Except Fault (List ℝ) :=
  if cells < 0 then Except.error Fault.bad_alloc
  else if cells.toNat < count ∨ src.length < count then Except.error Fault.out_of_bounds
  else Except.ok (src.take count ++ List.replicate (cells.toNat - count) 0)

/-- Entry `(i, j)` of a row-major `n × n` buffer, `A[i*n+j]`. -/
def entries (n : Nat) (A : List ℝ) : Nat → Nat → ℝ := fun i j => A.getD (i * n + j) 0

/-- Write the entries `a` back over the first `n*n` cells of `A`. -/
def store (n : Nat) (A : List ℝ) (a : Nat → Nat → ℝ) : List ℝ :=
  (List.range A.length).map fun k => if k < n * n then a (k / n) (k % n) else A.getD k 0

/-- The row-major `n × n` buffer read as a full matrix. -/
def toMatrix (n : Nat) (A : List ℝ) : Matrix (Fin n) (Fin n) ℝ :=
  Matrix.of fun i j => entries n A i j

/-- The symmetric matrix whose lower triangle, diagonal included, is that of
the row-major `n × n` buffer `A`. -/
def symLower (n : Nat) (A : List ℝ) : Matrix (Fin n) (Fin n) ℝ :=
  Matrix.of fun i j => if j ≤ i then entries n A i j else entries n A j i

/-- The first `n` cells of a buffer read as a vector. -/
def toVec (n : Nat) (x : List ℝ) : Fin n → ℝ := fun i => x.getD i 0

/-! ## The Linear Algebra Provider -/

/-- Modelled from the spec: the unblocked lower Cholesky loop of the Linear
Algebra Provider (§6 a), which is not under `src/`.  Column `j` is computed from
columns `0..j-1`; a pivot that is not positive stops the loop with
`info = j+1`.  Only entries on or below the diagonal are read or written. -/
noncomputable def potf2_loop (n : Nat) : Nat → Nat → (Nat → Nat → ℝ) → Int × (Nat → Nat → ℝ)
  | 0, _, a => (0, a)
  | r + 1, j, a =>
    let ajj := a j j - ∑ k in Finset.range j, a j k * a j k
    if ajj ≤ 0 then
      ((j : Int) + 1, fun i c => if i = j ∧ c = j then ajj else a i c)
    else
      potf2_loop n r (j + 1) (fun i c =>
        if c = j ∧ j ≤ i ∧ i < n then
          (if i = j then Real.sqrt ajj
           else (a i j - ∑ k in Finset.range j, a i k * a j k) / Real.sqrt ajj)
        else a i c)

/-- Modelled from the spec: `clapack_dpotrf(CblasRowMajor, CblasLower, n, A, n)`,
the in-place lower Cholesky factorization of the Linear Algebra Provider
(§6 a), which is not under `src/`.  Returns `info` and the buffer. -/
noncomputable def clapack_dpotrf (n : Nat) (A : List ℝ) : Except Fault (Int × List ℝ) :=
  if A.length < n * n then Except.error Fault.out_of_bounds
  else
    let r := potf2_loop n n 0 (entries n A)
    Except.ok (r.1, store n A r.2)

/-- Modelled from the spec: the in-place inverse of a lower triangular factor,
columns from the last to the first, as the Linear Algebra Provider's inversion
(§6 b) does first; not under `src/`. -/
noncomputable def trti2_loop (n : Nat) : Nat → (Nat → Nat → ℝ) → (Nat → Nat → ℝ)
  | 0, a => a
  | j + 1, a =>
    trti2_loop n j (fun i c =>
      if c = j ∧ j ≤ i ∧ i < n then
        (if i = j then 1 / a j j
         else -(1 / a j j) * ∑ k in Finset.Ico (j + 1) (i + 1), a i k * a k j)
      else a i c)

/-- Modelled from the spec: the in-place product `Xᵀ X` of a lower triangular
`X`, rows from the first to the last, lower triangle only, as the Linear
Algebra Provider's inversion (§6 b) does second; not under `src/`. -/
noncomputable def lauu2_loop (n : Nat) : Nat → Nat → (Nat → Nat → ℝ) → (Nat → Nat → ℝ)
  | 0, _, a => a
  | r + 1, i, a =>
    lauu2_loop n r (i + 1) (fun p c =>
      if p = i ∧ c ≤ i then
        (if c = i then ∑ k in Finset.Ico i n, a k i * a k i
         else a i i * a i c + ∑ k in Finset.Ico (i + 1) n, a k c * a k i)
      else a p c)

/-- Modelled from the spec: `clapack_dpotri(CblasRowMajor, CblasLower, n, A, n)`,
the in-place inverse from a Cholesky factor of the Linear Algebra Provider
(§6 b), which is not under `src/`.  A zero on the factor's diagonal stops it
with `info > 0` and the buffer unchanged. -/
noncomputable def clapack_dpotri (n : Nat) (A : List ℝ) : Except Fault (Int × List ℝ) :=
  if A.length < n * n then Except.error Fault.out_of_bounds
  else
    match (List.range n).find? (fun i => decide (entries n A i i = 0)) with
    | some i => Except.ok ((i : Int) + 1, A)
    | none => Except.ok (0, store n A (lauu2_loop n n 0 (trti2_loop n n (entries n A))))

/-- Modelled from the spec: `cblas_dsymv(CblasRowMajor, CblasLower, n, alpha, A,
n, x, 1, 0, y, 1)`, the symmetric matrix-vector product of the Linear Algebra
Provider (§6 c), which is not under `src/`: `y = alpha * A * x`, with `A`
read from its lower triangle only. -/
noncomputable def cblas_dsymv (n : Nat) (alpha : ℝ) (A x : List ℝ) : Except Fault (List ℝ) :=
  if A.length < n * n ∨ x.length < n then Except.error Fault.out_of_bounds
  else Except.ok ((List.range n).map fun i =>
    alpha * ∑ j in Finset.range n,
      (if j ≤ i then entries n A i j else entries n A j i) * x.getD j 0)

/-- Modelled from the spec: `cblas_ddot(n, x, 1, y, 1)`, the dot product of
the Linear Algebra Provider (§6 d), which is not under `src/`. -/
noncomputable def cblas_ddot (n : Nat) (x y : List ℝ) : Except Fault ℝ :=
  if x.length < n ∨ y.length < n then Except.error Fault.out_of_bounds
  else Except.ok (∑ i in Finset.range n, x.getD i 0 * y.getD i 0)

/-! ## The Feature Source -/

/-- Modelled from the spec: the Feature Source (§6), whose class is not under
`src/`: whether it has the capability `FP_DOT`, the vectors it holds, and the
mean, covariance and dimension that `get_mean_cov` reports. -/
structure CFeatures where
  has_property_FP_DOT : Bool
  feature_vectors : List (List ℝ)
  mean : List ℝ
  cov : List ℝ
  dim : Int

/-- Modelled from the spec: `get_feature_vector(&point, &point_len, num)`, a
vector with its length by example index (§6); an index out of range is the
source's error. -/
def CFeatures.get_feature_vector (f : CFeatures) (num : Int) : Except Fault (List ℝ × Int) :=
  if num < 0 then Except.error Fault.out_of_bounds
  else match f.feature_vectors[num.toNat]? with
    | some v => Except.ok (v, (v.length : Int))
    | none => Except.error Fault.out_of_bounds

/-! ## The model -/

/-- The fields of `CGaussian`. -/
structure CGaussian where
  m_data : Option CFeatures
  m_constant : ℝ
  m_cov : List ℝ
  m_cov_inverse : List ℝ
  m_mean : List ℝ
  m_dim : Int

/-- Modelled from the spec: `CMath::log`, the elementary logarithm (§1); it is
the natural logarithm on positive arguments. -/
noncomputable def CMath_log (v : ℝ) : ℝ := Real.log v

/-- The loop `for (i = 0; i < dim; i++) m_constant *= m_cov_inverse[i*dim+i]`:
`steps` iterations from index `i` on. -/
def constant_loop (dim : Int) : Nat → Int → Method CGaussian Unit
  | 0, _ => Method.ret ()
  | steps + 1, i => do
    let g ← Method.get
    let v ← Method.lift (read g.m_cov_inverse (wrap32 (wrap32 (i * dim) + i)))
    Method.assign fun s => { s with m_constant := s.m_constant * v }
    constant_loop dim steps (i + 1)

/-- `CGaussian::init(float64_t* mean, float64_t* cov, int32_t dim)`.  The sizes
`new float64_t[dim*dim]` are `int32_t` products; the byte counts
`sizeof(float64_t)*dim*dim` are `size_t` products. -/
noncomputable def CGaussian.init (mean cov : List ℝ) (dim : Int) : Method CGaussian Unit := do
  let m ← Method.lift (new_memcpy mean dim)
  Method.assign fun s => { s with m_mean := m }
  let c ← Method.lift (new_memcpy_sized cov (wrap32 (dim * dim)) (size_t_square dim))
  Method.assign fun s => { s with m_cov := c }
  let ci ← Method.lift (new_memcpy_sized cov (wrap32 (dim * dim)) (size_t_square dim))
  Method.assign fun s => { s with m_cov_inverse := ci }
  let g ← Method.get
  let f ← Method.lift (clapack_dpotrf dim.toNat g.m_cov_inverse)
  Method.assign fun s => { s with m_cov_inverse := f.2 }
  Method.assign fun s => { s with m_constant := 1 }
  constant_loop dim dim.toNat 0
  Method.assign fun s => { s with m_constant := 1 / s.m_constant }
  Method.assign fun s =>
    { s with m_constant := s.m_constant * (2 * Real.pi) ^ (((-dim : Int) : ℝ) / 2) }
  let g ← Method.get
  let r ← Method.lift (clapack_dpotri dim.toNat g.m_cov_inverse)
  Method.assign fun s => { s with m_cov_inverse := r.2 }
  Method.assign fun s => { s with m_dim := dim }

/-- Modelled from the spec: the macro `SG_ERROR`, not under `src/`: the
operation fails with an error and performs no further effect (§4.1, §7). -/
def SG_ERROR {σ : Type} : Method σ Unit := Method.raise Fault.sg_error

/-- Modelled from the spec: the macro `ASSERT`, not under `src/`: a violated
condition is a fatal assertion that terminates the operation (§7). -/
def ASSERT {σ : Type} (c : Bool) : Method σ Unit :=
  if c then Method.ret () else Method.raise Fault.assertion

/-- Modelled from the spec: `set_data`, declared in the header that is not
under `src/`: the source becomes the model's associated data source (§4.1). -/
def CGaussian.set_data (f : CFeatures) : Method CGaussian Unit :=
  Method.assign fun s => { s with m_data := some f }

/-- `CGaussian::init()`: registers the fields with the Parameter Registry,
which does not alter them (§6). -/
def CGaussian.register : Method CGaussian Unit := Method.ret ()

/-- `CGaussian::CGaussian()`, run on the raw object. -/
noncomputable def CGaussian.default_ctor : Method CGaussian Unit := do
  let mean : List ℝ := [0]
  let cov : List ℝ := [1]
  let dim : Int := 1
  CGaussian.init mean cov dim
  CGaussian.register

/-- `CGaussian::CGaussian(float64_t* mean, float64_t* cov, int32_t dim)`, run
on the raw object. -/
noncomputable def CGaussian.ctor (mean cov : List ℝ) (dim : Int) : Method CGaussian Unit := do
  CGaussian.init mean cov dim
  CGaussian.register

/-- `CGaussian::train(CFeatures* data)`; `none` is the null pointer. -/
noncomputable def CGaussian.train (data : Option CFeatures) : Method CGaussian Bool := do
  match data with
  | some d =>
    if !d.has_property_FP_DOT then
      SG_ERROR
    CGaussian.set_data d
  | none => Method.ret ()
  let g ← Method.get
  match g.m_data with
  | none => Method.raise Fault.null_pointer
  | some src =>
    CGaussian.init src.mean src.cov src.dim
    Method.ret true

/-- `CGaussian::get_num_model_parameters()`. -/
def CGaussian.get_num_model_parameters : Method CGaussian Int := do
  let g ← Method.get
  Method.ret (wrap32 (g.m_dim * wrap32 (g.m_dim + 1)))

/-- `CGaussian::get_log_model_parameter(int32_t num_param)`. -/
noncomputable def CGaussian.get_log_model_parameter (num_param : Int) : Method CGaussian ℝ := do
  let g ← Method.get
  if num_param < g.m_dim then
    let v ← Method.lift (read g.m_mean num_param)
    Method.ret (CMath_log v)
  else
    let v ← Method.lift (read g.m_cov (num_param - g.m_dim))
    Method.ret (CMath_log v)

/-- `CGaussian::get_log_derivative(int32_t num_param, int32_t num_example)`. -/
def CGaussian.get_log_derivative (_num_param _num_example : Int) : Method CGaussian ℝ :=
  Method.ret 0

/-- The loop `for (i = 0; i < m_dim; i++) difference[i] -= m_mean[i]`:
`steps` iterations from index `i` on. -/
def difference_loop (m_mean : List ℝ) : Nat → Int → List ℝ → Except Fault (List ℝ)
  | 0, _, difference => Except.ok difference
  | steps + 1, i, difference =>
    match read difference i, read m_mean i with
    | Except.ok a, Except.ok b =>
      difference_loop m_mean steps (i + 1) (difference.set i.toNat (a - b))
    | Except.error e, _ => Except.error e
    | _, Except.error e => Except.error e

/-- `CGaussian::compute_PDF(float64_t* point, int32_t point_len)`.  The buffer
`result` is written by `cblas_dsymv` without being read (`beta = 0`). -/
noncomputable def CGaussian.compute_PDF (point : List ℝ) (point_len : Int) :
    Method CGaussian ℝ := do
  let g ← Method.get
  ASSERT (decide (point_len = g.m_dim))
  let difference ← Method.lift (new_memcpy point g.m_dim)
  let difference ← Method.lift (difference_loop g.m_mean g.m_dim.toNat 0 difference)
  let result ← Method.lift
    (cblas_dsymv g.m_dim.toNat (-1.0 / 2.0) g.m_cov_inverse difference)
  let d ← Method.lift (cblas_ddot g.m_dim.toNat difference result)
  Method.ret (g.m_constant * Real.exp d)

/-- `CGaussian::get_log_likelihood_example(int32_t num_example)`. -/
noncomputable def CGaussian.get_log_likelihood_example (num_example : Int) :
    Method CGaussian ℝ := do
  let g ← Method.get
  match g.m_data with
  | none => Method.raise Fault.null_pointer
  | some src =>
    let p ← Method.lift (src.get_feature_vector num_example)
    let v ← CGaussian.compute_PDF p.1 p.2
    Method.ret (CMath_log v)

/-! ## Reference notions the specification is stated with -/

/-- A lower Cholesky factor of `S`: lower triangular, positive on the diagonal,
with `L * Lᵀ = S`. -/
def IsCholesky {d : Nat} (L S : Matrix (Fin d) (Fin d) ℝ) : Prop :=
  (∀ i j, i < j → L i j = 0) ∧ (∀ i, 0 < L i i) ∧ L * L.transpose = S

/-- The size invariant of an initialised model. -/
def CGaussian.Sized (g : CGaussian) : Prop :=
  0 ≤ g.m_dim ∧ g.m_mean.length = g.m_dim.toNat ∧
    g.m_cov.length = g.m_dim.toNat * g.m_dim.toNat ∧
    g.m_cov_inverse.length = g.m_dim.toNat * g.m_dim.toNat

/-- A square matrix as a function of natural indices, zero outside the matrix. -/
def natMat {n : Nat} (M : Matrix (Fin n) (Fin n) ℝ) : Nat → Nat → ℝ :=
  fun i j => if h : i < n ∧ j < n then M ⟨i, h.1⟩ ⟨j, h.2⟩ else 0

/-- The lower triangle, diagonal included, of an entry function, as a lower
triangular matrix. -/
def lowerPart (n : Nat) (a : Nat → Nat → ℝ) : Matrix (Fin n) (Fin n) ℝ :=
  Matrix.of fun i j => if (j : Nat) ≤ (i : Nat) then a i j else 0

/-- The entry `get_log_model_parameter(num_param)` reads on a model of
dimension `m_dim`: `Sum.inl k` for `m_mean[k]`, `Sum.inr k` for `m_cov[k]`. -/
def CGaussian.param_site (m_dim num_param : Int) : Sum Int Int :=
  if num_param < m_dim then Sum.inl num_param else Sum.inr (num_param - m_dim)

/-- The memory `compute_PDF` works on besides the object: the caller's buffer
`point` and the two buffers the method allocates. -/
structure Frame where
  point : List ℝ
  difference : List ℝ
  result : List ℝ

/-- `CGaussian::compute_PDF(float64_t* point, int32_t point_len)` on the object
together with the caller's buffer and the two local buffers, each statement
acting on the buffer the source names. -/
noncomputable def CGaussian.compute_PDF_frame (point_len : Int) :
    Method (CGaussian × Frame) ℝ := do
  let s ← Method.get
  ASSERT (decide (point_len = s.1.m_dim))
  let d ← Method.lift (new_memcpy s.2.point s.1.m_dim)
  Method.assign fun s => (s.1, { s.2 with difference := d })
  let r ← Method.lift (new_memcpy_sized [] s.1.m_dim 0)
  Method.assign fun s => (s.1, { s.2 with result := r })
  let s ← Method.get
  let d ← Method.lift (difference_loop s.1.m_mean s.1.m_dim.toNat 0 s.2.difference)
  Method.assign fun s => (s.1, { s.2 with difference := d })
  let s ← Method.get
  let r ← Method.lift
    (cblas_dsymv s.1.m_dim.toNat (-1.0 / 2.0) s.1.m_cov_inverse s.2.difference)
  Method.assign fun s => (s.1, { s.2 with result := r })
  let s ← Method.get
  let v ← Method.lift (cblas_ddot s.1.m_dim.toNat s.2.difference s.2.result)
  Method.ret (s.1.m_constant * Real.exp v)

/-! ## Concrete inputs -/

/-- An object before its constructor has run. -/
def raw : CGaussian :=
  { m_data := none, m_constant := 0, m_cov := [], m_cov_inverse := [], m_mean := [], m_dim := 0 }

/-- The mean `[1, -1]`. -/
def mean2 : List ℝ := [1, -1]

/-- The covariance `[[2, 0.5], [0.5, 1]]`, row-major. -/
noncomputable def cov2 : List ℝ := [2, 1 / 2, 1 / 2, 1]

/-- A feature source with the capability `FP_DOT`, holding the vectors `[0]`
and `[1]`, reporting mean `[0]`, covariance `[1]` and dimension 1. -/
def dot_source : CFeatures :=
  { has_property_FP_DOT := true, feature_vectors := [[0], [1]], mean := [0], cov := [1],
    dim := 1 }

/-- A feature source without the capability `FP_DOT`. -/
def plain_source : CFeatures :=
  { has_property_FP_DOT := false, feature_vectors := [[0], [1]], mean := [0], cov := [1],
    dim := 1 }

/-- A model of dimension 3 with zero mean and identity covariance. -/
def model3 : CGaussian :=
  { m_data := some dot_source, m_constant := 1, m_cov := [1, 0, 0, 0, 1, 0, 0, 0, 1],
    m_cov_inverse := [1, 0, 0, 0, 1, 0, 0, 0, 1], m_mean := [0, 0, 0], m_dim := 3 }

/-- A model of dimension 1 with an associated feature source. -/
def model1 : CGaussian :=
  { m_data := some dot_source, m_constant := 1, m_cov := [1], m_cov_inverse := [1],
    m_mean := [0], m_dim := 1 }

/-- The identity matrix of dimension `d` as a row-major buffer. -/
def identity_buffer (d : Nat) : List ℝ :=
  store d (List.replicate (d * d) 0) (fun i j => if i = j then 1 else 0)

/-- The zero mean of dimension 46341, the first dimension whose square is not
an `int32_t`. -/
def big_mean : List ℝ := List.replicate 46341 0

/-- The identity covariance of dimension 46341. -/
def big_cov : List ℝ := identity_buffer 46341

/-- A feature source with the capability `FP_DOT` reporting the zero mean, the
identity covariance and the dimension 46341. -/
def big_source : CFeatures :=
  { has_property_FP_DOT := true, feature_vectors := [], mean := big_mean, cov := big_cov,
    dim := 46341 }

/-! ## Sequencing of method bodies -/

theorem Method.bind_eq {σ α β : Type} (m : Method σ α) (f : α → Method σ β) :
    (m >>= f) = Method.seq m f := rfl

theorem Method.pure_eq {σ α : Type} (a : α) : (pure a : Method σ α) = Method.ret a := rfl

/-! ## Buffers and matrices -/

theorem length_store (n : Nat) (A : List ℝ) (a : Nat → Nat → ℝ) :
    (store n A a).length = A.length := by
  simp [store]

theorem index_lt {n i j : Nat} (hi : i < n) (hj : j < n) : i * n + j < n * n := by
  have h1 : (i + 1) * n ≤ n * n := Nat.mul_le_mul_right n hi
  have h2 : (i + 1) * n = i * n + n := by ring
  omega

theorem entries_store {n : Nat} {A : List ℝ} (a : Nat → Nat → ℝ) (hA : n * n ≤ A.length)
    {i j : Nat} (hi : i < n) (hj : j < n) : entries n (store n A a) i j = a i j := by
  have hk : i * n + j < n * n := index_lt hi hj
  have hn : 0 < n := by omega
  have hdiv : (i * n + j) / n = i := by
    rw [Nat.add_comm, Nat.add_mul_div_right _ _ hn, Nat.div_eq_of_lt hj, Nat.zero_add]
  have hmod : (i * n + j) % n = j := by
    rw [Nat.add_comm, Nat.add_mul_mod_self_right, Nat.mod_eq_of_lt hj]
  have hlen : i * n + j < (store n A a).length := by rw [length_store]; omega
  unfold entries
  rw [List.getD_eq_getElem _ _ hlen]
  simp only [store, List.getElem_map, List.getElem_range, if_pos hk, hdiv, hmod]

/-! ## The factorization and inversion loops -/

/-- The Cholesky loop reproduces any factor with a positive diagonal: with
columns `0..j-1` of the factor `L` already in place, the remaining `r` steps
end with `info = 0` and the whole lower triangle of `L` in place. -/
theorem potf2_loop_spec (n : Nat) (L a0 : Nat → Nat → ℝ)
    (hpos : ∀ j, j < n → 0 < L j j)
    (hfac : ∀ i j, j ≤ i → i < n → a0 i j = ∑ k in Finset.range (j + 1), L i k * L j k) :
    ∀ r j a, r + j = n →
      (∀ i c, a i c = if c < j ∧ c ≤ i ∧ i < n then L i c else a0 i c) →
      potf2_loop n r j a = (0, fun i c => if c ≤ i ∧ i < n then L i c else a0 i c) := by
  intro r
  induction r with
  | zero =>
    intro j a hj ha
    simp only [potf2_loop]
    congr 1
    funext i c
    rw [ha i c]
    have : j = n := by omega
    subst this
    by_cases h : c ≤ i ∧ i < j
    · rw [if_pos h, if_pos ⟨by omega, h.1, h.2⟩]
    · rw [if_neg h, if_neg (fun h2 => h ⟨h2.2.1, h2.2.2⟩)]
  | succ r ih =>
    intro j a hj ha
    have hjn : j < n := by omega
    have hrow : ∀ i k, k < j → j ≤ i → i < n → a i k = L i k := by
      intro i k hk hji hin
      rw [ha i k, if_pos ⟨hk, by omega, hin⟩]
    have hcol : ∀ i, j ≤ i → i < n → a i j = a0 i j := by
      intro i _ _
      rw [ha i j, if_neg (fun h => (lt_irrefl j) h.1)]
    have hsum : ∀ i, j ≤ i → i < n →
        a i j - ∑ k in Finset.range j, a i k * a j k = L i j * L j j := by
      intro i hji hin
      rw [hcol i hji hin, hfac i j hji hin, Finset.sum_range_succ]
      have : ∑ k in Finset.range j, a i k * a j k = ∑ k in Finset.range j, L i k * L j k := by
        apply Finset.sum_congr rfl
        intro k hk
        have hk2 : k < j := Finset.mem_range.1 hk
        rw [hrow i k hk2 hji hin, hrow j k hk2 (le_refl j) hjn]
      rw [this]
      ring
    have hLj := hpos j hjn
    have hajj : a j j - ∑ k in Finset.range j, a j k * a j k = L j j * L j j :=
      hsum j (le_refl j) hjn
    have hsqrt : Real.sqrt (L j j * L j j) = L j j := Real.sqrt_mul_self hLj.le
    have hnot : ¬ (L j j * L j j ≤ 0) := not_le.2 (mul_pos hLj hLj)
    simp only [potf2_loop]
    rw [hajj, if_neg hnot, hsqrt]
    apply ih (j + 1) _ (by omega)
    intro i c
    show (if c = j ∧ j ≤ i ∧ i < n then
        (if i = j then L j j
          else (a i j - ∑ k in Finset.range j, a i k * a j k) / L j j)
        else a i c) = if c < j + 1 ∧ c ≤ i ∧ i < n then L i c else a0 i c
    by_cases h1 : c = j ∧ j ≤ i ∧ i < n
    · have h1b : c < j + 1 ∧ c ≤ i ∧ i < n := ⟨by omega, by omega, h1.2.2⟩
      rw [if_pos h1, if_pos h1b, h1.1]
      by_cases h2 : i = j
      · rw [if_pos h2, h2]
      · rw [if_neg h2, hsum i h1.2.1 h1.2.2]
        field_simp
    · rw [if_neg h1, ha i c]
      by_cases h3 : c < j ∧ c ≤ i ∧ i < n
      · have h3b : c < j + 1 ∧ c ≤ i ∧ i < n := ⟨by omega, h3.2.1, h3.2.2⟩
        rw [if_pos h3, if_pos h3b]
      · have h3b : ¬ (c < j + 1 ∧ c ≤ i ∧ i < n) := by
          intro h4
          rcases Nat.lt_succ_iff_lt_or_eq.1 h4.1 with h5 | h5
          · exact h3 ⟨h5, h4.2.1, h4.2.2⟩
          · exact h1 ⟨h5, by omega, h4.2.2⟩
        rw [if_neg h3, if_neg h3b]

/-- The triangular inversion leaves the columns it has not reached, and every
entry outside the lower triangle, as they are. -/
theorem trti2_loop_frame (n : Nat) :
    ∀ m a i c, (m ≤ c ∨ ¬ (c ≤ i ∧ i < n)) → trti2_loop n m a i c = a i c := by
  intro m
  induction m with
  | zero => intro a i c _; rfl
  | succ m ih =>
    intro a i c h
    simp only [trti2_loop]
    rw [ih _ i c (by rcases h with h | h; exact Or.inl (by omega); exact Or.inr h)]
    have : ¬ (c = m ∧ m ≤ i ∧ i < n) := by
      rintro ⟨h1, h2, h3⟩
      rcases h with h | h
      · omega
      · exact h ⟨by omega, h3⟩
    rw [if_neg this]

/-- The triangular inversion: what columns `0..m-1` hold at the end, in terms
of the factor `a` and of the result itself. -/
theorem trti2_loop_spec (n : Nat) :
    ∀ m a, m ≤ n → ∀ j, j < m → ∀ i, j ≤ i → i < n →
      trti2_loop n m a i j =
        if i = j then 1 / a j j
        else -(1 / a j j) * ∑ k in Finset.Ico (j + 1) (i + 1), trti2_loop n m a i k * a k j := by
  intro m
  induction m with
  | zero => intro a _ j hj; omega
  | succ m ih =>
    intro a hm j hj i hji hin
    simp only [trti2_loop]
    rcases Nat.lt_succ_iff_lt_or_eq.1 hj with hlt | heq
    · rw [ih _ (by omega) j hlt i hji hin]
      have hne : ¬ (j = m ∧ m ≤ j ∧ j < n) := by rintro ⟨h, _, _⟩; omega
      have e1 : ∀ k, (if j = m ∧ m ≤ k ∧ k < n then
          (if k = m then 1 / a m m
            else -(1 / a m m) * ∑ k2 in Finset.Ico (m + 1) (k + 1), a k k2 * a k2 m)
          else a k j) = a k j := by
        intro k
        rw [if_neg]
        rintro ⟨h, _, _⟩; omega
      simp only [e1]
    · subst heq
      rw [trti2_loop_frame n j _ i j (Or.inl (le_refl j))]
      have hc : j = j ∧ j ≤ i ∧ i < n := ⟨rfl, hji, hin⟩
      rw [if_pos hc]
      by_cases hij : i = j
      · rw [if_pos hij, if_pos hij]
      · rw [if_neg hij, if_neg hij]
        congr 1
        apply Finset.sum_congr rfl
        intro k hk
        have hk2 := Finset.mem_Ico.1 hk
        rw [trti2_loop_frame n j _ i k (Or.inl (by omega))]
        have : ¬ (k = j ∧ j ≤ i ∧ i < n) := by rintro ⟨h, _, _⟩; omega
        rw [if_neg this]

/-- The product loop leaves the rows it has passed, and every entry above the
diagonal, as they are. -/
theorem lauu2_loop_frame (n : Nat) :
    ∀ r i a p c, (p < i ∨ p < c) → lauu2_loop n r i a p c = a p c := by
  intro r
  induction r with
  | zero => intro i a p c _; rfl
  | succ r ih =>
    intro i a p c h
    simp only [lauu2_loop]
    rw [ih (i + 1) _ p c (by rcases h with h | h; exact Or.inl (by omega); exact Or.inr h)]
    have : ¬ (p = i ∧ c ≤ i) := by
      rintro ⟨h1, h2⟩
      rcases h with h | h <;> omega
    rw [if_neg this]

/-- The product loop: rows `i..i+r-1` end holding the lower triangle of
`Xᵀ X`, for the lower triangular `X` held by `a`. -/
theorem lauu2_loop_spec (n : Nat) :
    ∀ r i a, i + r = n → ∀ p, i ≤ p → p < n → ∀ c, c ≤ p →
      lauu2_loop n r i a p c = ∑ k in Finset.Ico p n, a k p * a k c := by
  intro r
  induction r with
  | zero => intro i a h p hp hpn; omega
  | succ r ih =>
    intro i a h p hp hpn c hc
    simp only [lauu2_loop]
    rcases Nat.eq_or_lt_of_le hp with heq | hlt
    · subst heq
      rw [lauu2_loop_frame n r (i + 1) _ i c (Or.inl (Nat.lt_succ_self i))]
      have h1 : i = i ∧ c ≤ i := ⟨rfl, hc⟩
      rw [if_pos h1]
      by_cases hci : c = i
      · rw [if_pos hci, hci]
      · rw [if_neg hci, Finset.sum_eq_sum_Ico_succ_bot hpn]
        congr 1
        apply Finset.sum_congr rfl
        intro k _
        ring
    · rw [ih (i + 1) _ (by omega) p (by omega) hpn c hc]
      apply Finset.sum_congr rfl
      intro k hk
      have hk2 := Finset.mem_Ico.1 hk
      have e1 : ¬ (k = i ∧ p ≤ i) := by rintro ⟨h1, h2⟩; omega
      have e2 : ¬ (k = i ∧ c ≤ i) := by rintro ⟨h1, h2⟩; omega
      rw [if_neg e1, if_neg e2]

/-! ## Existence of the Cholesky factor -/

theorem lowerTri_iff {n : Nat} (M : Matrix (Fin n) (Fin n) ℝ) :
    M.BlockTriangular OrderDual.toDual ↔ ∀ i j, i < j → M i j = 0 := by
  constructor
  · intro h i j hij
    exact h (by simpa using hij)
  · intro h i j hij
    exact h i j (by simpa using hij)

theorem matrix_one_inst {n : Nat} (i1 i2 : DecidableEq (Fin n)) :
    @One.one (Matrix (Fin n) (Fin n) ℝ) (@Matrix.one _ _ i1 _ _) =
      @One.one (Matrix (Fin n) (Fin n) ℝ) (@Matrix.one _ _ i2 _ _) := by
  have : i1 = i2 := Subsingleton.elim _ _
  subst this
  rfl

theorem matrix_diagonal_inst {n : Nat} (i1 i2 : DecidableEq (Fin n)) (e : Fin n → ℝ) :
    @Matrix.diagonal _ _ i1 _ e = @Matrix.diagonal _ _ i2 _ e := by
  have : i1 = i2 := Subsingleton.elim _ _
  subst this
  rfl

/-- A positive definite matrix is diagonalised by a lower triangular congruence. -/
theorem exists_lower_congr_diagonal {n : Nat} {S : Matrix (Fin n) (Fin n) ℝ} (hS : S.PosDef) :
    ∃ (N : Matrix (Fin n) (Fin n) ℝ) (e : Fin n → ℝ),
      (∀ i j, i < j → N i j = 0) ∧ IsUnit N.det ∧ N * S * Nᵀ = Matrix.diagonal e := by
  have wf : WellFoundedLT (Fin n) := (Fin.Lt.isWellOrder n).toIsWellFounded
  refine ⟨@LDL.lowerInv ℝ _ (Fin n) _ wf _ S _ hS, @LDL.diagEntries ℝ _ (Fin n) _ wf _ S _ hS,
    ?_, ?_, ?_⟩
  · intro i j hij
    exact @LDL.lowerInv_triangular ℝ _ (Fin n) _ wf _ S _ hS i j hij
  · have inv := @LDL.invertibleLowerInv ℝ _ (Fin n) _ wf _ S _ hS
    have h1 := inv.invOf_mul_self
    have h2 : inv.invOf * @LDL.lowerInv ℝ _ (Fin n) _ wf _ S _ hS = 1 := by
      rw [h1]
      exact matrix_one_inst _ _
    have h3 := congrArg Matrix.det h2
    rw [Matrix.det_mul, Matrix.det_one] at h3
    exact isUnit_of_mul_eq_one_right _ _ h3
  · have h := @LDL.diag_eq_lowerInv_conj ℝ _ (Fin n) _ wf _ S _ hS
    rw [Matrix.conjTranspose_eq_transpose_of_trivial] at h
    rw [← h]
    unfold LDL.diag
    exact matrix_diagonal_inst _ _ _

theorem exists_cholesky {n : Nat} {S : Matrix (Fin n) (Fin n) ℝ} (hS : S.PosDef) :
    ∃ L, IsCholesky L S := by
  obtain ⟨N, e, hNtri, hNdet, hD⟩ := exists_lower_congr_diagonal hS
  have hdetS : S.det ≠ 0 := (hS.det_pos).ne'
  have hNtri2 : N.BlockTriangular OrderDual.toDual := (lowerTri_iff N).2 hNtri
  have hpsd : (Matrix.diagonal e).PosSemidef := by
    rw [← hD, ← Matrix.conjTranspose_eq_transpose_of_trivial]
    exact hS.posSemidef.mul_mul_conjTranspose_same N
  have he0 : ∀ i, 0 ≤ e i := fun i => (Matrix.posSemidef_diagonal_iff.1 hpsd) i
  have hdetD : (Matrix.diagonal e).det ≠ 0 := by
    rw [← hD, Matrix.det_mul, Matrix.det_mul, Matrix.det_transpose]
    have : N.det ≠ 0 := hNdet.ne_zero
    simp [this, hdetS]
  have hinvN : Invertible N := Matrix.invertibleOfIsUnitDet N hNdet
  have hMtri : (N⁻¹).BlockTriangular OrderDual.toDual :=
    Matrix.blockTriangular_inv_of_blockTriangular hNtri2
  have hNN : N⁻¹ * N = 1 := Matrix.nonsing_inv_mul N hNdet
  have hNNt : Nᵀ * (N⁻¹)ᵀ = 1 := by
    rw [← Matrix.transpose_mul, hNN, Matrix.transpose_one]
  have hlow : N⁻¹ * Matrix.diagonal e * (N⁻¹)ᵀ = S := by
    rw [← hD]
    calc N⁻¹ * (N * S * Nᵀ) * (N⁻¹)ᵀ = (N⁻¹ * N) * S * (Nᵀ * (N⁻¹)ᵀ) := by
          simp only [Matrix.mul_assoc]
      _ = S := by rw [hNN, hNNt, Matrix.one_mul, Matrix.mul_one]
  -- scale the columns by the square roots of the diagonal
  have hL0tri : (N⁻¹ * Matrix.diagonal (fun i => Real.sqrt (e i))).BlockTriangular
      OrderDual.toDual := hMtri.mul (Matrix.blockTriangular_diagonal _)
  have hL0mul : (N⁻¹ * Matrix.diagonal (fun i => Real.sqrt (e i))) *
      (N⁻¹ * Matrix.diagonal (fun i => Real.sqrt (e i)))ᵀ = S := by
    rw [Matrix.transpose_mul, Matrix.diagonal_transpose, ← Matrix.mul_assoc,
      Matrix.mul_assoc N⁻¹, Matrix.diagonal_mul_diagonal]
    have : (fun i => Real.sqrt (e i) * Real.sqrt (e i)) = e := by
      funext i; exact Real.mul_self_sqrt (he0 i)
    rw [this]
    exact hlow
  generalize N⁻¹ * Matrix.diagonal (fun i => Real.sqrt (e i)) = L0 at hL0tri hL0mul
  have hL0det : L0.det ≠ 0 := by
    intro h
    apply hdetS
    rw [← hL0mul, Matrix.det_mul, h, zero_mul]
  have hL0diag : ∀ i, L0 i i ≠ 0 := by
    intro i h
    apply hL0det
    rw [Matrix.det_of_lowerTriangular L0 hL0tri]
    exact Finset.prod_eq_zero (Finset.mem_univ i) h
  -- make the diagonal positive
  have hs2 : ∀ j : Fin n, (if 0 < L0 j j then (1 : ℝ) else -1) *
      (if 0 < L0 j j then (1 : ℝ) else -1) = 1 := by
    intro j; split_ifs <;> norm_num
  refine ⟨L0 * Matrix.diagonal (fun j => if 0 < L0 j j then (1 : ℝ) else -1), ?_, ?_, ?_⟩
  · intro i j hij
    rw [Matrix.mul_diagonal, (lowerTri_iff L0).1 hL0tri i j hij, zero_mul]
  · intro i
    rw [Matrix.mul_diagonal]
    split_ifs with h
    · simpa using h
    · have := hL0diag i
      have h2 : L0 i i < 0 := lt_of_le_of_ne (not_lt.1 h) this
      linarith
  · rw [Matrix.transpose_mul, Matrix.diagonal_transpose, ← Matrix.mul_assoc,
      Matrix.mul_assoc L0, Matrix.diagonal_mul_diagonal]
    have : (fun j : Fin n => (if 0 < L0 j j then (1 : ℝ) else -1) *
        (if 0 < L0 j j then (1 : ℝ) else -1)) = fun _ => (1 : ℝ) := funext hs2
    rw [this, Matrix.diagonal_one, Matrix.mul_one, hL0mul]

/-! ## From the loops to matrices -/

theorem natMat_apply {n : Nat} (M : Matrix (Fin n) (Fin n) ℝ) (i j : Fin n) :
    natMat M i j = M i j := by
  unfold natMat
  rw [dif_pos ⟨i.2, j.2⟩]

theorem natMat_lower {n : Nat} {M : Matrix (Fin n) (Fin n) ℝ}
    (hM : ∀ i j, i < j → M i j = 0) {i j : Nat} (hij : i < j) : natMat M i j = 0 := by
  unfold natMat
  split_ifs with h
  · exact hM _ _ (by simpa using hij)
  · rfl

/-- The entries of `L * Lᵀ` for a lower triangular `L`, as sums over the
columns up to the diagonal. -/
theorem cholesky_entries {d : Nat} {L S : Matrix (Fin d) (Fin d) ℝ} (hL : IsCholesky L S)
    (i j : Nat) (hji : j ≤ i) (hi : i < d) :
    natMat S i j = ∑ k in Finset.range (j + 1), natMat L i k * natMat L j k := by
  have hj : j < d := by omega
  have h1 : natMat S i j = ∑ k : Fin d, natMat L i k * natMat L j k := by
    have := natMat_apply S ⟨i, hi⟩ ⟨j, hj⟩
    simp only at this
    rw [this, ← hL.2.2, Matrix.mul_apply]
    apply Finset.sum_congr rfl
    intro k _
    rw [Matrix.transpose_apply, ← natMat_apply L ⟨i, hi⟩ k, ← natMat_apply L ⟨j, hj⟩ k]
  rw [h1, Fin.sum_univ_eq_sum_range (fun k => natMat L i k * natMat L j k) d]
  symm
  apply Finset.sum_subset
  · intro k hk
    have := Finset.mem_range.1 hk
    exact Finset.mem_range.2 (by omega)
  · intro k _ hk
    have hk2 : j < k := by
      by_contra h
      exact hk (Finset.mem_range.2 (by omega))
    rw [natMat_lower hL.1 hk2, mul_zero]

theorem entries_eq_natMat (d : Nat) (A : List ℝ) {i j : Nat} (hi : i < d) (hj : j < d) :
    entries d A i j = natMat (toMatrix d A) i j := by
  unfold natMat
  rw [dif_pos ⟨hi, hj⟩]
  rfl

/-- The triangular inversion loop computes a left inverse of the factor. -/
theorem trti2_inverse {d : Nat} {L : Matrix (Fin d) (Fin d) ℝ}
    (hLtri : ∀ i j, i < j → L i j = 0) (hLne : ∀ i, L i i ≠ 0) (a : Nat → Nat → ℝ)
    (ha : ∀ i j, j ≤ i → i < d → a i j = natMat L i j) :
    lowerPart d (trti2_loop d d a) * L = 1 := by
  ext i j
  rw [Matrix.mul_apply]
  have hsum : ∑ k : Fin d, lowerPart d (trti2_loop d d a) i k * L k j =
      ∑ k in Finset.range d,
        (if k ≤ (i : Nat) then trti2_loop d d a i k else 0) * natMat L k j := by
    rw [← Fin.sum_univ_eq_sum_range
      (fun k => (if k ≤ (i : Nat) then trti2_loop d d a i k else 0) * natMat L k j) d]
    apply Finset.sum_congr rfl
    intro k _
    rw [natMat_apply]
    rfl
  rw [hsum]
  have hid : i.1 < d := i.2
  have hjd : j.1 < d := j.2
  have hLjj : natMat L j j = L j j := natMat_apply L j j
  by_cases hij : (i : Nat) < j
  · -- above the diagonal
    have hne : i ≠ j := fun h => by rw [h] at hij; exact lt_irrefl _ hij
    rw [Matrix.one_apply_ne hne]
    apply Finset.sum_eq_zero
    intro k _
    by_cases hk : k ≤ (i : Nat)
    · rw [natMat_lower hLtri (show k < (j : Nat) by omega), mul_zero]
    · rw [if_neg hk, zero_mul]
  · have hji : (j : Nat) ≤ i := not_lt.1 hij
    -- only the columns from `j` to `i` contribute
    have hres : ∑ k in Finset.range d,
        (if k ≤ (i : Nat) then trti2_loop d d a i k else 0) * natMat L k j =
        ∑ k in Finset.Ico (j : Nat) (i + 1), trti2_loop d d a i k * natMat L k j := by
      symm
      have hsub : Finset.Ico (j : Nat) (i + 1) ⊆ Finset.range d := by
        intro k hk
        have := Finset.mem_Ico.1 hk
        exact Finset.mem_range.2 (by omega)
      rw [← Finset.sum_subset hsub]
      · apply Finset.sum_congr rfl
        intro k hk
        have := Finset.mem_Ico.1 hk
        rw [if_pos (by omega)]
      · intro k _ hk
        by_cases hk1 : k ≤ (i : Nat)
        · have : k < (j : Nat) := by
            by_contra h
            exact hk (Finset.mem_Ico.2 ⟨by omega, by omega⟩)
          rw [natMat_lower hLtri this, mul_zero]
        · rw [if_neg hk1, zero_mul]
    rw [hres, Finset.sum_eq_sum_Ico_succ_bot (by omega : (j : Nat) < i + 1)]
    have hspec := trti2_loop_spec d d a (le_refl d) j hjd i hji hid
    have hajj : a j j = L j j := by rw [ha j j (le_refl _) hjd, hLjj]
    have hcol : ∑ k in Finset.Ico ((j : Nat) + 1) (i + 1), trti2_loop d d a i k * a k j =
        ∑ k in Finset.Ico ((j : Nat) + 1) (i + 1), trti2_loop d d a i k * natMat L k j := by
      apply Finset.sum_congr rfl
      intro k hk
      have := Finset.mem_Ico.1 hk
      rw [ha k j (by omega) (by omega)]
    rw [hajj, hcol] at hspec
    rw [hspec, hLjj]
    by_cases heq : (i : Nat) = j
    · have hij2 : i = j := Fin.ext heq
      rw [if_pos heq, heq, Finset.Ico_self, Finset.sum_empty, Matrix.one_apply, if_pos hij2,
        add_zero]
      exact one_div_mul_cancel (hLne j)
    · have hij2 : i ≠ j := fun h => heq (congrArg Fin.val h)
      rw [if_neg heq, Matrix.one_apply_ne hij2]
      have := hLne j
      field_simp

/-- The product loop computes the lower triangle of `Xᵀ X`. -/
theorem lauu2_product {d : Nat} (X : Nat → Nat → ℝ) (p c : Fin d) (hcp : c ≤ p) :
    lauu2_loop d d 0 X p c = ((lowerPart d X)ᵀ * lowerPart d X) p c := by
  have hcp2 : (c : Nat) ≤ p := hcp
  rw [lauu2_loop_spec d d 0 X (by omega) p (Nat.zero_le _) p.2 c hcp2, Matrix.mul_apply]
  have hsum : ∑ k : Fin d, (lowerPart d X)ᵀ p k * lowerPart d X k c =
      ∑ k in Finset.range d,
        (if (p : Nat) ≤ k then X k p else 0) * (if (c : Nat) ≤ k then X k c else 0) := by
    rw [← Fin.sum_univ_eq_sum_range
      (fun k => (if (p : Nat) ≤ k then X k p else 0) * (if (c : Nat) ≤ k then X k c else 0)) d]
    rfl
  rw [hsum]
  have hsub : Finset.Ico (p : Nat) d ⊆ Finset.range d := by
    intro k hk
    have := Finset.mem_Ico.1 hk
    exact Finset.mem_range.2 (by omega)
  rw [← Finset.sum_subset hsub]
  · apply Finset.sum_congr rfl
    intro k hk
    have := Finset.mem_Ico.1 hk
    rw [if_pos (by omega), if_pos (by omega)]
  · intro k hk1 hk2
    have h1 := Finset.mem_range.1 hk1
    have : ¬ (p : Nat) ≤ k := fun h => hk2 (Finset.mem_Ico.2 ⟨h, h1⟩)
    rw [if_neg this, zero_mul]

/-- The factorization on a buffer holding a matrix with Cholesky factor `L`:
`info = 0`, the lower triangle holds `L`, the rest of the buffer is as it was. -/
theorem clapack_dpotrf_spec {d : Nat} (A : List ℝ) (hA : A.length = d * d)
    {L : Matrix (Fin d) (Fin d) ℝ} (hL : IsCholesky L (toMatrix d A)) :
    clapack_dpotrf d A = Except.ok (0, store d A
      (fun i c => if c ≤ i ∧ i < d then natMat L i c else entries d A i c)) := by
  unfold clapack_dpotrf
  rw [if_neg (by omega)]
  have hpos : ∀ j, j < d → 0 < natMat L j j := by
    intro j hj
    have := natMat_apply L ⟨j, hj⟩ ⟨j, hj⟩
    simp only at this
    rw [this]
    exact hL.2.1 _
  have hfac : ∀ i j, j ≤ i → i < d →
      entries d A i j = ∑ k in Finset.range (j + 1), natMat L i k * natMat L j k := by
    intro i j hji hi
    rw [entries_eq_natMat d A hi (by omega)]
    exact cholesky_entries hL i j hji hi
  have h := potf2_loop_spec d (natMat L) (entries d A) hpos hfac d 0 (entries d A) rfl
    (fun i c => by rw [if_neg]; rintro ⟨h, _, _⟩; exact Nat.not_lt_zero _ h)
  simp only [h]

/-- The inversion on a buffer whose lower triangle holds a factor `L` with
non-zero diagonal: `info = 0`, the lower triangle holds that of `(L Lᵀ)⁻¹`,
the entries above the diagonal are as they were. -/
theorem clapack_dpotri_spec {d : Nat} {L : Matrix (Fin d) (Fin d) ℝ}
    (hLtri : ∀ i j, i < j → L i j = 0) (hLne : ∀ i, L i i ≠ 0)
    (F : List ℝ) (hF : F.length = d * d)
    (hFL : ∀ i j, j ≤ i → i < d → entries d F i j = natMat L i j) :
    ∃ R, clapack_dpotri d F = Except.ok (0, R) ∧ R.length = d * d ∧
      (∀ i j : Fin d, j ≤ i → entries d R i j = (L * Lᵀ)⁻¹ i j) ∧
      (∀ i j, i < j → j < d → entries d R i j = entries d F i j) := by
  refine ⟨store d F (lauu2_loop d d 0 (trti2_loop d d (entries d F))), ?_, ?_, ?_, ?_⟩
  · unfold clapack_dpotri
    rw [if_neg (by omega)]
    have hnone : (List.range d).find? (fun i => decide (entries d F i i = 0)) = none := by
      rw [List.find?_eq_none]
      intro i hi
      have hi2 : i < d := List.mem_range.1 hi
      have := natMat_apply L ⟨i, hi2⟩ ⟨i, hi2⟩
      simp only at this
      rw [hFL i i (le_refl i) hi2, this]
      simpa using hLne ⟨i, hi2⟩
    rw [hnone]
  · rw [length_store, hF]
  · intro i j hji
    have hXL := trti2_inverse hLtri hLne (entries d F) hFL
    have hLX : L * lowerPart d (trti2_loop d d (entries d F)) = 1 :=
      Matrix.mul_eq_one_comm.1 hXL
    have hinv : (L * Lᵀ)⁻¹ = (lowerPart d (trti2_loop d d (entries d F)))ᵀ *
        lowerPart d (trti2_loop d d (entries d F)) := by
      apply Matrix.inv_eq_left_inv
      calc (lowerPart d (trti2_loop d d (entries d F)))ᵀ *
            lowerPart d (trti2_loop d d (entries d F)) * (L * Lᵀ)
          = (lowerPart d (trti2_loop d d (entries d F)))ᵀ *
            (lowerPart d (trti2_loop d d (entries d F)) * L) * Lᵀ := by
            simp only [Matrix.mul_assoc]
        _ = (L * lowerPart d (trti2_loop d d (entries d F)))ᵀ := by
            rw [hXL, Matrix.mul_one, Matrix.transpose_mul]
        _ = 1 := by rw [hLX, Matrix.transpose_one]
    rw [entries_store _ (by omega) i.2 j.2, hinv]
    exact lauu2_product _ i j hji
  · intro i j hij hj
    rw [entries_store _ (by omega) (by omega) hj,
      lauu2_loop_frame d d 0 _ i j (Or.inr hij),
      trti2_loop_frame d d _ i j (Or.inr (fun h => by omega))]

/-! ## What `init` computes -/

theorem wrap32_eq (x : Int) (h0 : -2 ^ 31 ≤ x) (h1 : x < 2 ^ 31) : wrap32 x = x := by
  unfold wrap32
  rw [Int.emod_eq_of_lt (by omega) (by omega)]
  ring

theorem wrap32_natCast (n : Nat) (h : n < 2 ^ 31) : wrap32 (n : Int) = (n : Int) :=
  wrap32_eq _ (by omega) (by exact_mod_cast h)

theorem size_t_square_natCast (d : Nat) (h : d * d < 2 ^ 31) : size_t_square (d : Int) = d * d := by
  have hd : d < 2 ^ 31 := by
    by_contra hcon
    have h1 : 2 ^ 31 ≤ d := not_lt.1 hcon
    have h2 : 2 ^ 31 * 1 ≤ d * d := Nat.mul_le_mul h1 (by omega)
    omega
  have h1 : (d : Int) % 2 ^ 64 = d := Int.emod_eq_of_lt (by omega) (by omega)
  have h2 : (8 * (d : Int) * (d : Int)) = ((8 * (d * d) : Nat) : Int) := by push_cast; ring
  unfold size_t_square
  rw [h1, h2, Int.emod_eq_of_lt (by omega) (by omega)]
  norm_cast
  rw [Nat.mul_div_cancel_left _ (by norm_num : 0 < 8)]

theorem new_memcpy_sized_exact (src : List ℝ) (n : Nat) (h : src.length = n) :
    new_memcpy_sized src (n : Int) n = Except.ok src := by
  unfold new_memcpy_sized
  rw [if_neg (by omega), Int.toNat_natCast, if_neg (by omega), List.take_of_length_le (by omega),
    Nat.sub_self]
  simp

theorem read_natCast (buf : List ℝ) (k : Nat) (hk : k < buf.length) :
    read buf (k : Int) = Except.ok (buf.getD k 0) := by
  unfold read
  rw [if_neg (by omega), Int.toNat_natCast, List.getElem?_eq_getElem hk,
    List.getD_eq_getElem _ _ hk]

theorem new_memcpy_natCast (src : List ℝ) (n : Nat) (h : n ≤ src.length) :
    new_memcpy src (n : Int) = Except.ok (src.take n) := by
  unfold new_memcpy
  rw [if_neg (by omega), Int.toNat_natCast, if_neg (by omega)]

/-- The loop over the diagonal multiplies `m_constant` by the diagonal entries
of the buffer and changes nothing else. -/
theorem constant_loop_spec (d : Nat) (hfit : d * d < 2 ^ 31) :
    ∀ steps i (g : CGaussian), i + steps = d → g.m_cov_inverse.length = d * d →
      constant_loop (d : Int) steps (i : Int) g =
        (Except.ok (), { g with m_constant :=
          g.m_constant * ∏ k in Finset.Ico i d, entries d g.m_cov_inverse k k }) := by
  intro steps
  induction steps with
  | zero =>
    intro i g hi _
    have : i = d := by omega
    subst this
    simp [constant_loop, Method.ret]
  | succ steps ih =>
    intro i g hi hlen
    have hid : i < d := by omega
    have hbound : i * d + i < d * d := index_lt hid hid
    have hidx : wrap32 (wrap32 ((i : Int) * (d : Int)) + (i : Int)) =
        ((i * d + i : Nat) : Int) := by
      have h1 : (i : Int) * (d : Int) = ((i * d : Nat) : Int) := by push_cast; ring
      rw [h1, wrap32_natCast _ (by omega)]
      have h2 : ((i * d : Nat) : Int) + (i : Int) = ((i * d + i : Nat) : Int) := by push_cast; ring
      rw [h2, wrap32_natCast _ (by omega)]
    have hlt : i * d + i < g.m_cov_inverse.length := by rw [hlen]; exact index_lt hid hid
    have hnext : (i : Int) + 1 = ((i + 1 : Nat) : Int) := by push_cast; ring
    have hread := read_natCast _ _ hlt
    simp only [constant_loop, Method.bind_eq, Method.seq, Method.get, Method.lift,
      Method.assign, hidx, hread, hnext]
    rw [ih (i + 1) { g with m_constant := g.m_constant * g.m_cov_inverse.getD (i * d + i) 0 }
      (by omega) hlen, Finset.prod_eq_prod_Ico_succ_bot hid]
    simp only [entries, mul_assoc]

/-- The run of `init` for a dimension whose square is an `int32_t`, on buffers
of the sizes of the dimension, given what the factorization and the inversion
return. -/
theorem init_eval (d : Nat) (hfit : d * d < 2 ^ 31) (mean cov : List ℝ) (hm : mean.length = d)
    (hc : cov.length = d * d) (info : Int) (F : List ℝ)
    (hF : clapack_dpotrf d cov = Except.ok (info, F)) (hFlen : F.length = d * d)
    (info2 : Int) (R : List ℝ) (hR : clapack_dpotri d F = Except.ok (info2, R))
    (g0 : CGaussian) :
    CGaussian.init mean cov (d : Int) g0 = (Except.ok (),
      { m_data := g0.m_data,
        m_constant := 1 / (1 * ∏ k in Finset.Ico 0 d, entries d F k k) *
          (2 * Real.pi) ^ (((-(d : Int) : Int) : ℝ) / 2),
        m_cov := cov, m_cov_inverse := R, m_mean := mean, m_dim := (d : Int) }) := by
  have hdd : wrap32 ((d : Int) * (d : Int)) = ((d * d : Nat) : Int) := by
    have h1 : (d : Int) * (d : Int) = ((d * d : Nat) : Int) := by push_cast; ring
    rw [h1]
    exact wrap32_natCast _ hfit
  have hsz := size_t_square_natCast d hfit
  have hmc : new_memcpy mean (d : Int) = Except.ok mean := by
    rw [new_memcpy_natCast mean d (by omega), List.take_of_length_le (by omega)]
  have hcc := new_memcpy_sized_exact cov (d * d) hc
  have hl := constant_loop_spec d hfit d 0 ⟨g0.m_data, 1, cov, F, mean, g0.m_dim⟩ (by omega)
    hFlen
  rw [Nat.cast_zero] at hl
  simp only [CGaussian.init, Method.bind_eq, Method.seq, Method.lift, Method.assign,
    Method.get, hdd, hsz, hmc, hcc, Int.toNat_natCast, hF, hl, hR]

/-- What `init` does on a covariance with Cholesky factor `L`: it returns, the
mean and covariance are stored as supplied, the constant is computed from the
diagonal of `L`, the lower triangle of the inverse buffer is that of the
inverse, and the entries above the diagonal are those of the covariance. -/
theorem init_spec (d : Nat) (hfit : d * d < 2 ^ 31) (mean cov : List ℝ)
    (hm : mean.length = d) (hc : cov.length = d * d) {L : Matrix (Fin d) (Fin d) ℝ}
    (hL : IsCholesky L (toMatrix d cov)) (g0 : CGaussian) :
    ∃ B : List ℝ, B.length = d * d ∧
      (∀ i j : Fin d, j ≤ i → entries d B i j = (toMatrix d cov)⁻¹ i j) ∧
      (∀ i j, i < j → j < d → entries d B i j = entries d cov i j) ∧
      CGaussian.init mean cov (d : Int) g0 = (Except.ok (),
        { m_data := g0.m_data,
          m_constant := 1 / (∏ i : Fin d, L i i) * (2 * Real.pi) ^ (-(d : ℝ) / 2),
          m_cov := cov, m_cov_inverse := B, m_mean := mean, m_dim := (d : Int) }) := by
  have hLne : ∀ i, L i i ≠ 0 := fun i => (hL.2.1 i).ne'
  have hpotrf := clapack_dpotrf_spec cov hc hL
  generalize hFdef : store d cov
      (fun i c => if c ≤ i ∧ i < d then natMat L i c else entries d cov i c) = F at hpotrf
  have hF : F.length = d * d := by rw [← hFdef, length_store, hc]
  have hFL : ∀ i j, j ≤ i → i < d → entries d F i j = natMat L i j := by
    intro i j hji hi
    rw [← hFdef, entries_store _ (by omega) hi (by omega), if_pos ⟨hji, hi⟩]
  obtain ⟨R, hR, hRlen, hRinv, hRup⟩ := clapack_dpotri_spec hL.1 hLne F hF hFL
  refine ⟨R, hRlen, ?_, ?_, ?_⟩
  · intro i j hji
    rw [hRinv i j hji, hL.2.2]
  · intro i j hij hj
    rw [hRup i j hij hj, ← hFdef, entries_store _ (by omega) (by omega) hj, if_neg]
    rintro ⟨h, _⟩
    omega
  · have hprod : ∏ k in Finset.Ico 0 d, entries d F k k = ∏ i : Fin d, L i i := by
      rw [← Finset.range_eq_Ico, ← Fin.prod_univ_eq_prod_range (fun k => entries d F k k) d]
      apply Finset.prod_congr rfl
      intro i _
      rw [hFL i i (le_refl _) i.2, natMat_apply]
    have hexp : (((-(d : Int) : Int) : ℝ)) / 2 = -(d : ℝ) / 2 := by push_cast; ring
    rw [init_eval d hfit mean cov hm hc 0 F hpotrf hF 0 R hR g0, hprod, hexp, one_mul]

/-! ## What `compute_PDF` computes -/

theorem getD_set (l : List ℝ) (i k : Nat) (v : ℝ) (hi : i < l.length) :
    (l.set i v).getD k 0 = if k = i then v else l.getD k 0 := by
  simp only [List.getD_eq_getElem?_getD, List.getElem?_set]
  by_cases h : i = k
  · subst h
    simp [hi]
  · rw [if_neg h, if_neg (fun h2 => h h2.symm)]

/-- The subtraction loop returns, keeps the length, and subtracts the mean
from the entries it passes. -/
theorem difference_loop_spec (mean : List ℝ) :
    ∀ steps i (diff : List ℝ), i + steps ≤ diff.length → i + steps ≤ mean.length →
      ∃ r, difference_loop mean steps (i : Int) diff = Except.ok r ∧
        r.length = diff.length ∧
        ∀ k, r.getD k 0 =
          if i ≤ k ∧ k < i + steps then diff.getD k 0 - mean.getD k 0 else diff.getD k 0 := by
  intro steps
  induction steps with
  | zero =>
    intro i diff _ _
    refine ⟨diff, rfl, rfl, ?_⟩
    intro k
    rw [if_neg]
    omega
  | succ steps ih =>
    intro i diff hd hmn
    have hnext : (i : Int) + 1 = ((i + 1 : Nat) : Int) := by push_cast; ring
    have hset : (diff.set i (diff.getD i 0 - mean.getD i 0)).length = diff.length :=
      List.length_set _ _ _
    obtain ⟨r, hr, hrlen, hrget⟩ := ih (i + 1) (diff.set i (diff.getD i 0 - mean.getD i 0))
      (by rw [hset]; omega) (by omega)
    refine ⟨r, ?_, by rw [hrlen, hset], ?_⟩
    · simp only [difference_loop]
      rw [read_natCast diff i (by omega), read_natCast mean i (by omega)]
      simp only [Int.toNat_natCast]
      rw [hnext]
      exact hr
    · intro k
      rw [hrget k, getD_set _ _ _ _ (by omega)]
      by_cases hk : k = i
      · subst hk
        rw [if_neg (by omega), if_pos rfl, if_pos ⟨le_refl _, by omega⟩]
      · rw [if_neg hk]
        by_cases h2 : i + 1 ≤ k ∧ k < i + 1 + steps
        · rw [if_pos h2, if_pos ⟨by omega, by omega⟩]
        · rw [if_neg h2, if_neg]
          rintro ⟨h3, h4⟩
          exact h2 ⟨by omega, by omega⟩

theorem getD_take (x : List ℝ) (d k : Nat) (hk : k < d) :
    (x.take d).getD k 0 = x.getD k 0 := by
  simp only [List.getD_eq_getElem?_getD, List.getElem?_take, if_pos hk]

theorem getD_map_range (n : Nat) (f : Nat → ℝ) (i : Nat) (hi : i < n) :
    ((List.range n).map f).getD i 0 = f i := by
  have h : i < ((List.range n).map f).length := by simpa using hi
  rw [List.getD_eq_getElem _ _ h]
  simp

/-- The value of `compute_PDF` on a state whose buffers are large enough for
its dimension: the constant times the exponential of the quadratic form of the
symmetric matrix read from the lower triangle of the inverse buffer; the state
is left as it is. -/
theorem compute_PDF_spec (g : CGaussian) (d : Nat) (hd : g.m_dim = (d : Int))
    (hmean : d ≤ g.m_mean.length) (hci : d * d ≤ g.m_cov_inverse.length)
    (x : List ℝ) (hx : d ≤ x.length) :
    CGaussian.compute_PDF x (d : Int) g =
      (Except.ok (g.m_constant * Real.exp (Matrix.dotProduct (toVec d x - toVec d g.m_mean)
        ((-1 / 2 : ℝ) • (symLower d g.m_cov_inverse).mulVec (toVec d x - toVec d g.m_mean)))),
       g) := by
  obtain ⟨r, hr, hrlen, hrget⟩ := difference_loop_spec g.m_mean d 0 (x.take d)
    (by rw [List.length_take]; omega) (by omega)
  have hrlen2 : r.length = d := by rw [hrlen, List.length_take]; omega
  have hrv : ∀ k : Fin d, r.getD k 0 = (toVec d x - toVec d g.m_mean) k := by
    intro k
    rw [hrget k, if_pos ⟨Nat.zero_le _, by have := k.2; omega⟩, getD_take _ _ _ k.2]
    rfl
  rw [Nat.cast_zero] at hr
  simp only [CGaussian.compute_PDF, Method.bind_eq, Method.seq, Method.get, ASSERT, hd,
    decide_True, if_true, Method.ret, Method.lift, Int.toNat_natCast]
  rw [new_memcpy_natCast x d hx]
  simp only []
  rw [hr]
  simp only [cblas_dsymv]
  rw [if_neg (by omega)]
  simp only [cblas_ddot]
  rw [if_neg (by rw [List.length_map, List.length_range]; omega)]
  simp only []
  congr 3
  rw [← Fin.sum_univ_eq_sum_range (fun i => r.getD i 0 * ((List.range d).map fun i =>
    (-1.0 / 2.0 : ℝ) * ∑ j in Finset.range d,
      (if j ≤ i then entries d g.m_cov_inverse i j else entries d g.m_cov_inverse j i) *
        r.getD j 0).getD i 0) d]
  unfold Matrix.dotProduct
  congr 1
  apply Finset.sum_congr rfl
  intro i _
  rw [getD_map_range d _ i i.2, hrv i, Pi.smul_apply, smul_eq_mul]
  congr 1
  have h2 : (-1.0 / 2.0 : ℝ) = -1 / 2 := by norm_num
  rw [h2]
  congr 1
  unfold Matrix.mulVec Matrix.dotProduct
  rw [← Fin.sum_univ_eq_sum_range (fun j =>
    (if j ≤ (i : Nat) then entries d g.m_cov_inverse i j else entries d g.m_cov_inverse j i) *
      r.getD j 0) d]
  apply Finset.sum_congr rfl
  intro j _
  rw [hrv j]
  rfl

theorem inv_symm_of_posDef {d : Nat} {S : Matrix (Fin d) (Fin d) ℝ} (hS : S.PosDef)
    (i j : Fin d) : S⁻¹ i j = S⁻¹ j i := by
  have h1 : Sᵀ = S := by
    have := hS.isHermitian
    rwa [Matrix.IsHermitian, Matrix.conjTranspose_eq_transpose_of_trivial] at this
  have h2 : (S⁻¹)ᵀ = S⁻¹ := by rw [Matrix.transpose_nonsing_inv, h1]
  calc S⁻¹ i j = (S⁻¹)ᵀ j i := rfl
    _ = S⁻¹ j i := by rw [h2]

/-- The buffer whose lower triangle is that of the inverse, read through its
lower triangle, is the inverse. -/
theorem symLower_eq_inv {d : Nat} {S : Matrix (Fin d) (Fin d) ℝ} (hS : S.PosDef)
    (B : List ℝ) (hB : ∀ i j : Fin d, j ≤ i → entries d B i j = S⁻¹ i j) :
    symLower d B = S⁻¹ := by
  ext i j
  show (if (j : Nat) ≤ i then entries d B i j else entries d B j i) = S⁻¹ i j
  by_cases h : (j : Nat) ≤ i
  · rw [if_pos h, hB i j h]
  · rw [if_neg h, hB j i (by have := not_le.1 h; exact le_of_lt this)]
    exact inv_symm_of_posDef hS j i

theorem clapack_dpotrf_total (n : Nat) (A : List ℝ) (hA : A.length = n * n) :
    ∃ info F, clapack_dpotrf n A = Except.ok (info, F) ∧ F.length = n * n := by
  refine ⟨(potf2_loop n n 0 (entries n A)).1, store n A (potf2_loop n n 0 (entries n A)).2, ?_,
    by rw [length_store, hA]⟩
  unfold clapack_dpotrf
  rw [if_neg (by omega)]

theorem clapack_dpotri_total (n : Nat) (A : List ℝ) (hA : A.length = n * n) :
    ∃ info R, clapack_dpotri n A = Except.ok (info, R) ∧ R.length = n * n := by
  unfold clapack_dpotri
  rw [if_neg (by omega)]
  cases (List.range n).find? (fun i => decide (entries n A i i = 0)) with
  | none => exact ⟨_, _, rfl, by rw [length_store, hA]⟩
  | some i => exact ⟨_, _, rfl, hA⟩

/-- On buffers of the sizes of a dimension whose square is an `int32_t`, `init`
returns, whatever
the covariance: the mean and the covariance are stored as supplied, the
dimension is set, and the constant and the inverse buffer do not depend on the
state the object was in. -/
theorem init_total (d : Nat) (hfit : d * d < 2 ^ 31) (mean cov : List ℝ)
    (hm : mean.length = d) (hc : cov.length = d * d) :
    ∃ (K : ℝ) (B : List ℝ), B.length = d * d ∧ ∀ g0 : CGaussian,
      CGaussian.init mean cov (d : Int) g0 = (Except.ok (),
        { m_data := g0.m_data, m_constant := K, m_cov := cov, m_cov_inverse := B,
          m_mean := mean, m_dim := (d : Int) }) := by
  obtain ⟨info, F, hF, hFlen⟩ := clapack_dpotrf_total d cov hc
  obtain ⟨info2, R, hR, hRlen⟩ := clapack_dpotri_total d F hFlen
  refine ⟨1 / (1 * ∏ k in Finset.Ico 0 d, entries d F k k) *
    (2 * Real.pi) ^ (((-(d : Int) : Int) : ℝ) / 2), R, hRlen, ?_⟩
  intro g0
  exact init_eval d hfit mean cov hm hc info F hF hFlen info2 R hR g0

theorem wrap32_lt (x : Int) : wrap32 x < 2 ^ 31 := by
  unfold wrap32
  have := Int.emod_lt_of_pos (x + 2 ^ 31) (by norm_num : (0 : Int) < 2 ^ 32)
  omega

theorem new_memcpy_sized_length (src : List ℝ) (cells : Int) (count : Nat) (c : List ℝ)
    (h : new_memcpy_sized src cells count = Except.ok c) : (c.length : Int) = cells := by
  unfold new_memcpy_sized at h
  by_cases h1 : cells < 0
  · rw [if_pos h1] at h
    exact absurd h (by simp)
  · rw [if_neg h1] at h
    by_cases h2 : cells.toNat < count ∨ src.length < count
    · rw [if_pos h2] at h
      exact absurd h (by simp)
    · rw [if_neg h2] at h
      have hc := Except.ok.inj h
      rw [← hc, List.length_append, List.length_replicate, List.length_take]
      push_neg at h2
      omega
/-- At a dimension whose square is not an `int32_t`, `init` does not return:
the allocation fails, or the copy or the factorization leaves the buffer. -/
theorem init_fails_of_overflow (d : Nat) (hbig : 2 ^ 31 ≤ d * d) (mean cov : List ℝ)
    (g0 g : CGaussian) : CGaussian.init mean cov (d : Int) g0 ≠ (Except.ok (), g) := by
  have hlt := wrap32_lt ((d : Int) * (d : Int))
  have hbig2 : (2 : Int) ^ 31 ≤ ((d * d : Nat) : Int) := by exact_mod_cast hbig
  rcases hm : new_memcpy mean (d : Int) with e | m
  · simp only [CGaussian.init, Method.bind_eq, Method.seq, Method.lift, hm]
    simp
  · rcases hc : new_memcpy_sized cov (wrap32 ((d : Int) * (d : Int)))
        (size_t_square (d : Int)) with e | c
    · simp only [CGaussian.init, Method.bind_eq, Method.seq, Method.lift, Method.assign, hm, hc]
      simp
    · have hlen := new_memcpy_sized_length _ _ _ _ hc
      have hshort : c.length < d * d := by
        have : (c.length : Int) < ((d * d : Nat) : Int) := by omega
        exact_mod_cast this
      have hpotrf : clapack_dpotrf d c = Except.error Fault.out_of_bounds := by
        unfold clapack_dpotrf
        rw [if_pos hshort]
      simp only [CGaussian.init, Method.bind_eq, Method.seq, Method.lift, Method.assign,
        Method.get, Int.toNat_natCast, hm, hc, hpotrf]
      simp

/-- The model `init` leaves when it returns has buffers of the sizes of its
dimension. -/
theorem init_sized (d : Nat) (mean cov : List ℝ)
    (hm : mean.length = d) (hc : cov.length = d * d) (g0 g : CGaussian)
    (h : CGaussian.init mean cov (d : Int) g0 = (Except.ok (), g)) : g.Sized := by
  by_cases hfit : d * d < 2 ^ 31
  · obtain ⟨K, B, hB, hinit⟩ := init_total d hfit mean cov hm hc
    rw [hinit g0] at h
    have hg := (Prod.mk.inj h).2
    subst hg
    exact ⟨Int.natCast_nonneg d, by simpa using hm, by simpa using hc, by simpa using hB⟩
  · exact absurd h (init_fails_of_overflow d (not_lt.1 hfit) mean cov g0 g)

/-! ## The dimension 46341 -/

theorem identity_buffer_length (d : Nat) : (identity_buffer d).length = d * d := by
  unfold identity_buffer
  rw [length_store, List.length_replicate]

theorem toMatrix_identity (d : Nat) : toMatrix d (identity_buffer d) = 1 := by
  ext i j
  show entries d (identity_buffer d) i j = (1 : Matrix (Fin d) (Fin d) ℝ) i j
  unfold identity_buffer
  rw [entries_store _ (by rw [List.length_replicate]) i.2 j.2, Matrix.one_apply]
  by_cases h : i = j
  · rw [if_pos h, if_pos (congrArg Fin.val h)]
  · rw [if_neg h, if_neg (fun h2 => h (Fin.ext h2))]

theorem identity_posDef (d : Nat) : (toMatrix d (identity_buffer d)).PosDef := by
  rw [toMatrix_identity]
  exact Matrix.PosDef.one

theorem wrap32_overflow : wrap32 (46341 * 46341) = -2147479015 := by
  unfold wrap32
  norm_num

/-- At the dimension 46341 the `int32_t` product `dim*dim` is negative: the
allocation of `m_cov` fails, after `m_mean` has been assigned, and `init`
raises. -/
theorem init_overflow (mean cov : List ℝ) (hm : mean.length = 46341) (g0 : CGaussian) :
    CGaussian.init mean cov 46341 g0 =
      (Except.error Fault.bad_alloc, { g0 with m_mean := mean }) := by
  have hmc : new_memcpy mean (46341 : Int) = Except.ok mean := by
    have h := new_memcpy_natCast mean 46341 (by omega)
    rw [List.take_of_length_le (by omega)] at h
    exact_mod_cast h
  have hcc : ∀ n, new_memcpy_sized cov (-2147479015) n = Except.error Fault.bad_alloc := by
    intro n
    unfold new_memcpy_sized
    rw [if_pos (by norm_num)]
  simp only [CGaussian.init, Method.bind_eq, Method.seq, Method.lift, Method.assign,
    Method.get, hmc, wrap32_overflow, hcc]

theorem big_mean_length : big_mean.length = 46341 := List.length_replicate _ _

theorem big_cov_length : big_cov.length = 46341 * 46341 := identity_buffer_length 46341

theorem big_cov_posDef : (toMatrix 46341 big_cov).PosDef := identity_posDef 46341

theorem big_init_fails (g0 : CGaussian) :
    CGaussian.init big_mean big_cov 46341 g0 =
      (Except.error Fault.bad_alloc, { g0 with m_mean := big_mean }) :=
  init_overflow big_mean big_cov big_mean_length g0

theorem big_init_not_ok (g0 g : CGaussian) :
    CGaussian.init big_mean big_cov 46341 g0 ≠ (Except.ok (), g) := by
  rw [big_init_fails]
  intro h
  exact absurd (congrArg Prod.fst h) (by simp)

/-! ## The specification, claim by claim -/

theorem cov2_posDef : (toMatrix 2 cov2).PosDef := by
  refine ⟨?_, ?_⟩
  · ext i j
    fin_cases i <;> fin_cases j <;> simp [toMatrix, entries, cov2]
  · intro x hx
    have hne : x 0 ≠ 0 ∨ x 1 ≠ 0 := by
      by_contra h
      push_neg at h
      apply hx
      funext i
      fin_cases i
      · exact h.1
      · exact h.2
    have hval : Matrix.dotProduct (star x) ((toMatrix 2 cov2).mulVec x) =
        2 * x 0 * x 0 + x 0 * x 1 + x 1 * x 1 := by
      simp [Matrix.dotProduct, Matrix.mulVec, Fin.sum_univ_two, toMatrix, entries, cov2]
      ring
    rw [hval]
    rcases hne with h | h
    · have := sq_pos_of_ne_zero h
      nlinarith [sq_nonneg (x 0 + x 1 / 2), sq_nonneg (x 1)]
    · have := sq_pos_of_ne_zero h
      nlinarith [sq_nonneg (x 0 + x 1 / 2), sq_nonneg (x 0)]

theorem cov2_inv : (toMatrix 2 cov2)⁻¹ = !![4 / 7, -2 / 7; -2 / 7, 8 / 7] := by
  apply Matrix.inv_eq_left_inv
  ext i j
  fin_cases i <;> fin_cases j <;>
    simp [Matrix.mul_apply, Fin.sum_univ_two, toMatrix, entries, cov2] <;> norm_num

/-- C2 fails as stated: at the covariance `[[2, 0.5], [0.5, 1]]`, symmetric
positive definite of dimension 2, `init` returns and the stored
`m_cov_inverse`, read as a full row-major matrix, is not the inverse: its
entry `[0][1]` is still the `0.5` of the covariance. -/
theorem cov_inverse_full_not_inverse :
    (toMatrix 2 cov2).PosDef ∧
    ∃ g, CGaussian.init mean2 cov2 ((2 : Nat) : Int) raw = (Except.ok (), g) ∧
      entries 2 g.m_cov_inverse 0 1 = 1 / 2 ∧
      toMatrix 2 g.m_cov_inverse * toMatrix 2 cov2 ≠ 1 := by
  refine ⟨cov2_posDef, ?_⟩
  obtain ⟨L, hL⟩ := exists_cholesky cov2_posDef
  obtain ⟨B, _, hBinv, hBup, hinit⟩ := init_spec 2 (by norm_num) mean2 cov2 rfl rfl hL raw
  have h01 : entries 2 B 0 1 = 1 / 2 := by
    rw [hBup 0 1 (by norm_num) (by norm_num)]
    simp [entries, cov2]
  have h00 : entries 2 B 0 0 = 4 / 7 := by
    have := hBinv 0 0 (le_refl _)
    rw [cov2_inv] at this
    simpa using this
  refine ⟨_, hinit, h01, ?_⟩
  intro h
  have h2 := congrFun (congrFun h 0) 1
  simp only [Matrix.mul_apply, Fin.sum_univ_two, toMatrix, Matrix.of_apply, Fin.val_zero,
    Fin.val_one] at h2
  rw [h00, h01] at h2
  simp [entries, cov2] at h2
  norm_num at h2

/-- C2, amended: for every symmetric positive definite covariance of dimension
1, 2 or 5, `init` returns and the stored `m_cov_inverse` has `d*d` entries,
its lower triangle, diagonal included, is that of the exact inverse, so that
the symmetric matrix read from that triangle times the covariance is the
identity; the entries above the diagonal are those of the covariance. -/
theorem cov_inverse_lower_is_inverse (d : Nat) (_hd : d = 1 ∨ d = 2 ∨ d = 5)
    (mean cov : List ℝ) (hm : mean.length = d) (hc : cov.length = d * d)
    (hS : (toMatrix d cov).PosDef) (g0 : CGaussian) :
    ∃ g, CGaussian.init mean cov (d : Int) g0 = (Except.ok (), g) ∧
      g.m_cov_inverse.length = d * d ∧
      symLower d g.m_cov_inverse * toMatrix d cov = 1 ∧
      (∀ i j : Fin d, j ≤ i → entries d g.m_cov_inverse i j = (toMatrix d cov)⁻¹ i j) ∧
      (∀ i j, i < j → j < d → entries d g.m_cov_inverse i j = entries d cov i j) := by
  have hfit : d * d < 2 ^ 31 := by
    rcases _hd with h | h | h <;> rw [h] <;> norm_num
  obtain ⟨L, hL⟩ := exists_cholesky hS
  obtain ⟨B, hBlen, hBinv, hBup, hinit⟩ := init_spec d hfit mean cov hm hc hL g0
  refine ⟨_, hinit, hBlen, ?_, hBinv, hBup⟩
  show symLower d B * toMatrix d cov = 1
  rw [symLower_eq_inv hS B hBinv]
  exact Matrix.nonsing_inv_mul _ ((Matrix.isUnit_iff_isUnit_det _).1 hS.isUnit)

/-- C2 amended, at the covariance `[[2, 0.5], [0.5, 1]]`. -/
theorem cov_inverse_lower_is_inverse_witness :
    (toMatrix 2 cov2).PosDef ∧
    ∃ g, CGaussian.init mean2 cov2 ((2 : Nat) : Int) raw = (Except.ok (), g) ∧
      g.m_cov_inverse.length = 2 * 2 ∧
      symLower 2 g.m_cov_inverse * toMatrix 2 cov2 = 1 ∧
      (∀ i j : Fin 2, j ≤ i → entries 2 g.m_cov_inverse i j = (toMatrix 2 cov2)⁻¹ i j) ∧
      (∀ i j, i < j → j < 2 → entries 2 g.m_cov_inverse i j = entries 2 cov2 i j) :=
  ⟨cov2_posDef, cov_inverse_lower_is_inverse 2 (Or.inr (Or.inl rfl)) mean2 cov2 rfl rfl
    cov2_posDef raw⟩

/-- The lower triangle of the buffer the factorization leaves is the Cholesky
factor. -/
theorem lowerPart_store_cholesky {d : Nat} (A : List ℝ) (hA : A.length = d * d)
    {L : Matrix (Fin d) (Fin d) ℝ} (hL : IsCholesky L (toMatrix d A)) :
    lowerPart d (entries d (store d A
      (fun i c => if c ≤ i ∧ i < d then natMat L i c else entries d A i c))) = L := by
  ext i j
  show (if (j : Nat) ≤ i then entries d (store d A _) i j else 0) = L i j
  rw [entries_store _ (by omega) i.2 j.2]
  by_cases h : (j : Nat) ≤ i
  · rw [if_pos h, if_pos ⟨h, i.2⟩, natMat_apply]
  · rw [if_neg h, hL.1 i j (by simpa using h)]

/-- C3, amended: for every dimension `d ≥ 1` whose square is an `int32_t`
(`d*d < 2^31`) and symmetric positive definite covariance, the factorization leaves a buffer `F` whose lower triangle is the
lower Cholesky factor of the covariance, and `init` returns with `m_constant`
equal to `(1 / ∏ F[i*d+i]) * (2π)^(-d/2)`, the exponent being the real
quotient; the same holds with the diagonal of any Cholesky factor of the
covariance. -/
theorem init_constant (d : Nat) (_hd : 1 ≤ d) (hfit : d * d < 2 ^ 31) (mean cov : List ℝ)
    (hm : mean.length = d) (hc : cov.length = d * d)
    (hS : (toMatrix d cov).PosDef) (g0 : CGaussian) :
    ∃ F g, clapack_dpotrf d cov = Except.ok (0, F) ∧
      IsCholesky (lowerPart d (entries d F)) (toMatrix d cov) ∧
      CGaussian.init mean cov (d : Int) g0 = (Except.ok (), g) ∧
      g.m_constant =
        (1 / ∏ i in Finset.range d, F.getD (i * d + i) 0) * (2 * Real.pi) ^ (-(d : ℝ) / 2) ∧
      ∀ L, IsCholesky L (toMatrix d cov) →
        g.m_constant = (1 / ∏ i, L i i) * (2 * Real.pi) ^ (-(d : ℝ) / 2) := by
  obtain ⟨L, hL⟩ := exists_cholesky hS
  obtain ⟨B, _, _, _, hinit⟩ := init_spec d hfit mean cov hm hc hL g0
  have hlow := lowerPart_store_cholesky cov hc hL
  refine ⟨_, _, clapack_dpotrf_spec cov hc hL, ?_, hinit, ?_, ?_⟩
  · rw [hlow]
    exact hL
  · show 1 / (∏ i : Fin d, L i i) * _ = _
    congr 2
    rw [← Fin.prod_univ_eq_prod_range (fun i => (store d cov
      (fun i c => if c ≤ i ∧ i < d then natMat L i c else entries d cov i c)).getD
        (i * d + i) 0) d]
    apply Finset.prod_congr rfl
    intro i _
    show L i i = entries d (store d cov _) i i
    rw [entries_store _ (by omega) i.2 i.2, if_pos ⟨le_refl _, i.2⟩, natMat_apply]
  · intro L2 hL2
    obtain ⟨B2, _, _, _, hinit2⟩ := init_spec d hfit mean cov hm hc hL2 g0
    rw [hinit] at hinit2
    have := congrArg (fun r => r.2.m_constant) hinit2
    exact this

/-- C3 amended, at `d = 2` and the covariance `[[2, 0.5], [0.5, 1]]`. -/
theorem init_constant_witness :
    (toMatrix 2 cov2).PosDef ∧
    ∃ F g, clapack_dpotrf 2 cov2 = Except.ok (0, F) ∧
      IsCholesky (lowerPart 2 (entries 2 F)) (toMatrix 2 cov2) ∧
      CGaussian.init mean2 cov2 ((2 : Nat) : Int) raw = (Except.ok (), g) ∧
      g.m_constant =
        (1 / ∏ i in Finset.range 2, F.getD (i * 2 + i) 0) *
          (2 * Real.pi) ^ (-((2 : Nat) : ℝ) / 2) ∧
      ∀ L, IsCholesky L (toMatrix 2 cov2) →
        g.m_constant = (1 / ∏ i, L i i) * (2 * Real.pi) ^ (-((2 : Nat) : ℝ) / 2) :=
  ⟨cov2_posDef, init_constant 2 (by norm_num) (by norm_num) mean2 cov2 rfl rfl cov2_posDef raw⟩

theorem toMatrix_one : toMatrix 1 [1] = (1 : Matrix (Fin 1) (Fin 1) ℝ) := by
  ext i j
  fin_cases i
  fin_cases j
  simp [toMatrix, entries]

theorem isCholesky_one : IsCholesky (1 : Matrix (Fin 1) (Fin 1) ℝ) (toMatrix 1 [1]) := by
  refine ⟨?_, ?_, ?_⟩
  · intro i j hij
    exact absurd hij (by rw [Subsingleton.elim i j]; exact lt_irrefl _)
  · intro i
    rw [Matrix.one_apply_eq]
    exact one_pos
  · rw [Matrix.transpose_one, Matrix.one_mul, toMatrix_one]

/-- C4: the default constructor returns and leaves a model of dimension 1,
mean `[0]` and covariance `[1]`, on which `compute_PDF([0], 1)` returns
`1/√(2π)` and `compute_PDF([1], 1)` returns `e^(-0.5)/√(2π)`. -/
theorem default_ctor_standard_normal (g0 : CGaussian) :
    ∃ g, CGaussian.default_ctor g0 = (Except.ok (), g) ∧
      g.m_dim = 1 ∧ g.m_mean = [0] ∧ g.m_cov = [1] ∧
      CGaussian.compute_PDF [0] 1 g = (Except.ok (1 / Real.sqrt (2 * Real.pi)), g) ∧
      CGaussian.compute_PDF [1] 1 g =
        (Except.ok (Real.exp (-0.5) / Real.sqrt (2 * Real.pi)), g) := by
  obtain ⟨B, hBlen, hBinv, _, hinit⟩ := init_spec 1 (by norm_num) [0] [1] rfl rfl isCholesky_one g0
  have hpd : (toMatrix 1 [1]).PosDef := by rw [toMatrix_one]; exact Matrix.PosDef.one
  have hsym : symLower 1 B = 1 := by
    rw [symLower_eq_inv hpd B hBinv, toMatrix_one, inv_one]
  have hconst : 1 / (∏ i : Fin 1, (1 : Matrix (Fin 1) (Fin 1) ℝ) i i) *
      (2 * Real.pi) ^ (-((1 : Nat) : ℝ) / 2) = 1 / Real.sqrt (2 * Real.pi) := by
    have hpos : (0 : ℝ) ≤ 2 * Real.pi := by positivity
    rw [Real.sqrt_eq_rpow, one_div, one_div, ← Real.rpow_neg hpos]
    simp
    congr 1
    ring
  obtain ⟨g, hg⟩ : ∃ g : CGaussian, g = ⟨g0.m_data,
      1 / (∏ i : Fin 1, (1 : Matrix (Fin 1) (Fin 1) ℝ) i i) *
        (2 * Real.pi) ^ (-((1 : Nat) : ℝ) / 2), [1], B, [0], ((1 : Nat) : Int)⟩ := ⟨_, rfl⟩
  rw [← hg] at hinit
  have hdim : g.m_dim = ((1 : Nat) : Int) := by rw [hg]
  have hmean : g.m_mean = [0] := by rw [hg]
  have hcov : g.m_cov = [1] := by rw [hg]
  have hci : g.m_cov_inverse = B := by rw [hg]
  have hk : g.m_constant = 1 / Real.sqrt (2 * Real.pi) := by rw [hg]; exact hconst
  have hpdf := fun x hx => compute_PDF_spec g 1 hdim (by rw [hmean]; simp)
    (by rw [hci]; omega) x hx
  simp only [hci, hsym, hk, hmean, Matrix.one_mulVec, Matrix.dotProduct_smul, smul_eq_mul,
    Nat.cast_one] at hpdf
  rw [Nat.cast_one] at hinit hdim
  refine ⟨g, ?_, hdim, hmean, hcov, ?_, ?_⟩
  · simp only [CGaussian.default_ctor, Method.bind_eq, Method.seq, hinit, CGaussian.register,
      Method.ret]
  · rw [hpdf [0] (by simp)]
    simp [Matrix.dotProduct, toVec]
  · rw [hpdf [1] (by simp)]
    have he : (-0.5 : ℝ) = -1 / 2 := by norm_num
    have hv : Matrix.dotProduct (toVec 1 [1] - toVec 1 [0]) (toVec 1 [1] - toVec 1 [0]) = 1 := by
      simp [Matrix.dotProduct, toVec]
    rw [hv, he, mul_one]
    congr 2
    ring

/-- The outcome of `compute_PDF` does not depend on the associated feature
source. -/
theorem compute_PDF_data_irrelevant (x : List ℝ) (n : Int) (g : CGaussian)
    (md : Option CFeatures) :
    (CGaussian.compute_PDF x n { g with m_data := md }).1 = (CGaussian.compute_PDF x n g).1 := by
  simp only [CGaussian.compute_PDF, Method.bind_eq, Method.seq, Method.get, ASSERT,
    Method.lift, Method.ret, Method.raise]
  by_cases h : n = g.m_dim
  · simp only [h, decide_True, if_true]
    cases new_memcpy x g.m_dim with
    | error e => rfl
    | ok a =>
      simp only []
      cases difference_loop g.m_mean g.m_dim.toNat 0 a with
      | error e => rfl
      | ok b =>
        simp only []
        cases cblas_dsymv g.m_dim.toNat (-1.0 / 2.0) g.m_cov_inverse b with
        | error e => rfl
        | ok c =>
          simp only []
          cases cblas_ddot g.m_dim.toNat b c with
          | error e => rfl
          | ok v => rfl
  · simp only [h, decide_False]
    rfl

/-- C5, amended: for every feature source with the capability `FP_DOT` that
reports a mean of length `d`, a covariance of `d*d` entries and a dimension `d`
whose square is an `int32_t` (`d*d < 2^31`),
`train` returns `true`, associates the source, and leaves exactly the state
`init` leaves on those three values: the stored mean, covariance and dimension
are the reported ones, and every later `compute_PDF` has the outcome it has on
a model constructed directly from them. -/
theorem train_eq_init (src : CFeatures) (hdot : src.has_property_FP_DOT = true)
    (d : Nat) (hfit : d * d < 2 ^ 31) (hdim : src.dim = (d : Int)) (hm : src.mean.length = d)
    (hc : src.cov.length = d * d) (g0 : CGaussian) :
    ∃ g, CGaussian.train (some src) g0 = (Except.ok true, g) ∧
      g.m_data = some src ∧
      CGaussian.init src.mean src.cov src.dim { g0 with m_data := some src } =
        (Except.ok (), g) ∧
      g.m_mean = src.mean ∧ g.m_cov = src.cov ∧ g.m_dim = src.dim ∧
      ∀ raw0, ∃ g1, CGaussian.ctor src.mean src.cov src.dim raw0 = (Except.ok (), g1) ∧
        g1.m_cov_inverse = g.m_cov_inverse ∧ g1.m_constant = g.m_constant ∧
        ∀ x n, (CGaussian.compute_PDF x n g).1 = (CGaussian.compute_PDF x n g1).1 := by
  obtain ⟨K, B, _, hinit⟩ := init_total d hfit src.mean src.cov hm hc
  refine ⟨⟨some src, K, src.cov, B, src.mean, (d : Int)⟩, ?_, rfl, ?_, rfl, rfl, hdim.symm, ?_⟩
  · simp only [CGaussian.train, Method.bind_eq, Method.seq, hdot, Bool.not_true,
      CGaussian.set_data, Method.assign, Method.get, Method.ret, Method.pure_eq, hdim]
    unfold Method.seq
    simp only [Method.ret, Method.assign, Method.get, Bool.false_eq_true, if_false, hdim, hinit]
  · rw [hdim, hinit]
  · intro raw0
    refine ⟨⟨raw0.m_data, K, src.cov, B, src.mean, (d : Int)⟩, ?_, rfl, rfl, ?_⟩
    · simp only [CGaussian.ctor, Method.bind_eq, Method.seq, hdim, hinit, CGaussian.register,
        Method.ret]
    · intro x n
      exact (compute_PDF_data_irrelevant x n ⟨raw0.m_data, K, src.cov, B, src.mean, (d : Int)⟩
        (some src))

/-- C5 amended, at a source reporting mean `[0]`, covariance `[1]` and dimension 1. -/
theorem train_eq_init_witness :
    ∃ g, CGaussian.train (some dot_source) raw = (Except.ok true, g) ∧
      g.m_data = some dot_source ∧
      CGaussian.init dot_source.mean dot_source.cov dot_source.dim
        { raw with m_data := some dot_source } = (Except.ok (), g) ∧
      g.m_mean = dot_source.mean ∧ g.m_cov = dot_source.cov ∧ g.m_dim = dot_source.dim ∧
      ∀ raw0, ∃ g1, CGaussian.ctor dot_source.mean dot_source.cov dot_source.dim raw0 =
          (Except.ok (), g1) ∧
        g1.m_cov_inverse = g.m_cov_inverse ∧ g1.m_constant = g.m_constant ∧
        ∀ x n, (CGaussian.compute_PDF x n g).1 = (CGaussian.compute_PDF x n g1).1 :=
  train_eq_init dot_source rfl 1 (by norm_num) rfl rfl rfl raw

/-- C6: for every model state and every provided feature source without the
capability `FP_DOT`, `train` raises the error of `SG_ERROR` and leaves the
whole state, the associated feature source included, as it was. -/
theorem train_without_dot_fails (g : CGaussian) (src : CFeatures)
    (h : src.has_property_FP_DOT = false) :
    CGaussian.train (some src) g = (Except.error Fault.sg_error, g) := by
  simp only [CGaussian.train, Method.bind_eq, Method.seq, h, Bool.not_false, if_true,
    SG_ERROR, Method.raise]

/-- C6, at a model of dimension 1 and a source without `FP_DOT`. -/
theorem train_without_dot_fails_witness :
    CGaussian.train (some plain_source) model1 = (Except.error Fault.sg_error, model1) :=
  train_without_dot_fails model1 plain_source rfl

/-- C7: for every model with an associated feature source and every index for
which the source returns a vector `v` with its length `len`,
`get_log_likelihood_example` has the outcome of `compute_PDF(v, len)` with the
logarithm applied to a returned value; it raises exactly when that call
raises, with the same fault. -/
theorem get_log_likelihood_example_eq (g : CGaussian) (src : CFeatures)
    (hsrc : g.m_data = some src) (i : Int) (v : List ℝ) (len : Int)
    (hv : src.get_feature_vector i = Except.ok (v, len)) :
    (CGaussian.get_log_likelihood_example i g).1 =
        Except.map CMath_log (CGaussian.compute_PDF v len g).1 ∧
      ∀ e, (CGaussian.get_log_likelihood_example i g).1 = Except.error e ↔
        (CGaussian.compute_PDF v len g).1 = Except.error e := by
  have hval : (CGaussian.get_log_likelihood_example i g).1 =
      Except.map CMath_log (CGaussian.compute_PDF v len g).1 := by
    simp only [CGaussian.get_log_likelihood_example, Method.bind_eq, Method.seq, Method.get,
      hsrc, Method.lift, hv, Method.ret]
    rcases hc : CGaussian.compute_PDF v len g with ⟨r, s⟩
    cases r with
    | error e => rfl
    | ok p => rfl
  refine ⟨hval, ?_⟩
  intro e
  rw [hval]
  cases (CGaussian.compute_PDF v len g).1 with
  | error e2 => simp [Except.map]
  | ok p => simp [Except.map]

/-- C7, at a model of dimension 1 and the index 1 of its source. -/
theorem get_log_likelihood_example_eq_witness :
    (CGaussian.get_log_likelihood_example 1 model1).1 =
        Except.map CMath_log (CGaussian.compute_PDF [1] 1 model1).1 ∧
      ∀ e, (CGaussian.get_log_likelihood_example 1 model1).1 = Except.error e ↔
        (CGaussian.compute_PDF [1] 1 model1).1 = Except.error e :=
  get_log_likelihood_example_eq model1 dot_source rfl 1 [1] 1 rfl

/-- C8: on a model with buffers of the sizes of its dimension and a point
buffer of at least `point_len` entries, `compute_PDF` raises the assertion
fault if and only if `point_len` differs from the dimension; when they are
equal it returns a value and leaves the state as it is, and no other fault is
ever raised: every read is in bounds. -/
theorem compute_PDF_fault_iff (g : CGaussian) (hs : g.Sized) (point : List ℝ)
    (point_len : Int) (hp : point_len ≤ (point.length : Int)) :
    ((CGaussian.compute_PDF point point_len g).1 = Except.error Fault.assertion ↔
        point_len ≠ g.m_dim) ∧
      (point_len = g.m_dim → ∃ v, CGaussian.compute_PDF point point_len g = (Except.ok v, g)) ∧
      ∀ e, (CGaussian.compute_PDF point point_len g).1 = Except.error e →
        e = Fault.assertion := by
  obtain ⟨h0, hmean, _, hci⟩ := hs
  by_cases h : point_len = g.m_dim
  · have hd : g.m_dim = ((g.m_dim.toNat : Nat) : Int) := (Int.toNat_of_nonneg h0).symm
    have hspec := compute_PDF_spec g g.m_dim.toNat hd (by omega) (by omega) point (by omega)
    rw [← hd, ← h] at hspec
    rw [hspec]
    refine ⟨?_, fun _ => ⟨_, rfl⟩, ?_⟩
    · constructor
      · intro h2
        exact absurd h2 (by simp)
      · intro h2
        exact absurd h h2
    · intro e h2
      exact absurd h2 (by simp)
  · have hfail : CGaussian.compute_PDF point point_len g = (Except.error Fault.assertion, g) := by
      simp only [CGaussian.compute_PDF, Method.bind_eq, Method.seq, Method.get, ASSERT, h,
        decide_False, Method.raise]
      rfl
    rw [hfail]
    refine ⟨⟨fun _ => h, fun _ => rfl⟩, fun h2 => absurd h2 h, ?_⟩
    intro e h2
    exact (Except.error.inj h2).symm

/-- C8, at a model of dimension 3 and the point `[1, 2, 3]`. -/
theorem compute_PDF_fault_iff_witness :
    ((CGaussian.compute_PDF [1, 2, 3] 3 model3).1 = Except.error Fault.assertion ↔
        (3 : Int) ≠ model3.m_dim) ∧
      ((3 : Int) = model3.m_dim →
        ∃ v, CGaussian.compute_PDF [1, 2, 3] 3 model3 = (Except.ok v, model3)) ∧
      ∀ e, (CGaussian.compute_PDF [1, 2, 3] 3 model3).1 = Except.error e →
        e = Fault.assertion :=
  compute_PDF_fault_iff model3 ⟨by decide, rfl, rfl, rfl⟩ [1, 2, 3] 3 (by decide)

/-- C9: for every model whose dimension `d` is a 32-bit value with `d*(d+1)`
representable in 32 bits, `get_num_model_parameters` returns `d*(d+1)`, which
is `d + d^2`, and leaves the state as it is; for `d = 3` it returns 12. -/
theorem get_num_model_parameters_eq (g : CGaussian)
    (hrange : -2 ^ 31 ≤ g.m_dim ∧ g.m_dim < 2 ^ 31)
    (hrep : g.m_dim * (g.m_dim + 1) < 2 ^ 31) :
    CGaussian.get_num_model_parameters g = (Except.ok (g.m_dim * (g.m_dim + 1)), g) ∧
      g.m_dim * (g.m_dim + 1) = g.m_dim + g.m_dim ^ 2 ∧
      (g.m_dim = 3 → CGaussian.get_num_model_parameters g = (Except.ok 12, g)) := by
  have hnn : 0 ≤ g.m_dim * (g.m_dim + 1) := by
    rcases le_or_lt 0 g.m_dim with h | h
    · exact mul_nonneg h (by omega)
    · exact mul_nonneg_of_nonpos_of_nonpos (by omega) (by omega)
  have hlt : g.m_dim + 1 < 2 ^ 31 := by
    by_contra hcon
    have h1 : g.m_dim = 2 ^ 31 - 1 := by omega
    rw [h1] at hrep
    norm_num at hrep
  have hw1 : wrap32 (g.m_dim + 1) = g.m_dim + 1 := by
    unfold wrap32
    rw [Int.emod_eq_of_lt (by omega) (by omega)]
    ring
  have hw2 : wrap32 (g.m_dim * (g.m_dim + 1)) = g.m_dim * (g.m_dim + 1) := by
    unfold wrap32
    rw [Int.emod_eq_of_lt (by omega) (by omega)]
    ring
  have hval : CGaussian.get_num_model_parameters g =
      (Except.ok (g.m_dim * (g.m_dim + 1)), g) := by
    simp only [CGaussian.get_num_model_parameters, Method.bind_eq, Method.seq, Method.get,
      Method.ret, hw1, hw2]
  refine ⟨hval, by ring, ?_⟩
  intro h3
  rw [hval, h3]
  norm_num

/-- C9, at a model of dimension 3. -/
theorem get_num_model_parameters_eq_witness :
    CGaussian.get_num_model_parameters model3 =
        (Except.ok (model3.m_dim * (model3.m_dim + 1)), model3) ∧
      model3.m_dim * (model3.m_dim + 1) = model3.m_dim + model3.m_dim ^ 2 ∧
      (model3.m_dim = 3 → CGaussian.get_num_model_parameters model3 = (Except.ok 12, model3)) :=
  get_num_model_parameters_eq model3 ⟨by decide, by decide⟩ (by decide)

/-- C10: for every model with buffers of the sizes of its dimension `d` and
every index `k` with `0 ≤ k < d*(d+1)`: if `k < d` the read `m_mean[k]` is in
bounds and `get_log_model_parameter(k)` returns its logarithm, otherwise the
read `m_cov[k-d]` of the stored covariance is in bounds and it returns the
logarithm of that entry; the state is left as it is. -/
theorem get_log_model_parameter_eq (g : CGaussian) (hs : g.Sized) (k : Int) (h0 : 0 ≤ k)
    (h1 : k < g.m_dim * (g.m_dim + 1)) :
    (k < g.m_dim → ∃ v, g.m_mean[k.toNat]? = some v ∧
        CGaussian.get_log_model_parameter k g = (Except.ok (CMath_log v), g)) ∧
      (¬ k < g.m_dim → ∃ v, g.m_cov[(k - g.m_dim).toNat]? = some v ∧
        CGaussian.get_log_model_parameter k g = (Except.ok (CMath_log v), g)) := by
  obtain ⟨hd0, hmean, hcov, _⟩ := hs
  constructor
  · intro hk
    have hlt : k.toNat < g.m_mean.length := by omega
    refine ⟨g.m_mean[k.toNat], List.getElem?_eq_getElem hlt, ?_⟩
    simp only [CGaussian.get_log_model_parameter, Method.bind_eq, Method.seq, Method.get,
      if_pos hk, Method.lift, Method.ret, read, if_neg (not_lt.2 h0),
      List.getElem?_eq_getElem hlt]
  · intro hk
    have hk2 : g.m_dim ≤ k := not_lt.1 hk
    have hlt : (k - g.m_dim).toNat < g.m_cov.length := by
      rw [hcov]
      have h2 : k - g.m_dim < g.m_dim * g.m_dim := by linarith
      have h3 : ((g.m_dim.toNat : Nat) : Int) = g.m_dim := Int.toNat_of_nonneg hd0
      have h4 : (((k - g.m_dim).toNat : Nat) : Int) = k - g.m_dim :=
        Int.toNat_of_nonneg (by omega)
      have h5 : (((k - g.m_dim).toNat : Nat) : Int) <
          ((g.m_dim.toNat * g.m_dim.toNat : Nat) : Int) := by
        rw [h4]; push_cast; rw [h3]; exact h2
      exact_mod_cast h5
    refine ⟨g.m_cov[(k - g.m_dim).toNat], List.getElem?_eq_getElem hlt, ?_⟩
    simp only [CGaussian.get_log_model_parameter, Method.bind_eq, Method.seq, Method.get,
      if_neg hk, Method.lift, Method.ret, read, if_neg (not_lt.2 (sub_nonneg.2 hk2)),
      List.getElem?_eq_getElem hlt]

/-- C10, at a model of dimension 3 and the index 7. -/
theorem get_log_model_parameter_eq_witness :
    ((7 : Int) < model3.m_dim → ∃ v, model3.m_mean[(7 : Int).toNat]? = some v ∧
        CGaussian.get_log_model_parameter 7 model3 = (Except.ok (CMath_log v), model3)) ∧
      (¬ (7 : Int) < model3.m_dim → ∃ v, model3.m_cov[((7 : Int) - model3.m_dim).toNat]? = some v ∧
        CGaussian.get_log_model_parameter 7 model3 = (Except.ok (CMath_log v), model3)) :=
  get_log_model_parameter_eq model3 ⟨by decide, rfl, rfl, rfl⟩ 7 (by decide) (by decide)

/-- `compute_PDF` leaves the object state as it is, whatever its outcome. -/
theorem compute_PDF_state (x : List ℝ) (n : Int) (g : CGaussian) :
    (CGaussian.compute_PDF x n g).2 = g := by
  simp only [CGaussian.compute_PDF, Method.bind_eq, Method.seq, Method.get, ASSERT,
    Method.lift, Method.ret, Method.raise]
  by_cases h : n = g.m_dim
  · simp only [h, decide_True, if_true]
    cases new_memcpy x g.m_dim with
    | error e => rfl
    | ok a =>
      simp only []
      cases difference_loop g.m_mean g.m_dim.toNat 0 a with
      | error e => rfl
      | ok b =>
        simp only []
        cases cblas_dsymv g.m_dim.toNat (-1.0 / 2.0) g.m_cov_inverse b with
        | error e => rfl
        | ok c =>
          simp only []
          cases cblas_ddot g.m_dim.toNat b c with
          | error e => rfl
          | ok v => rfl
  · simp only [h, decide_False]
    rfl

/-- The frame version of `compute_PDF` has the outcome of `compute_PDF` on the
caller's buffer, and leaves the object and the caller's buffer as they are,
whatever its outcome. -/
theorem compute_PDF_frame_spec (n : Int) (g : CGaussian) (fr : Frame) :
    (CGaussian.compute_PDF_frame n (g, fr)).1 = (CGaussian.compute_PDF fr.point n g).1 ∧
      (CGaussian.compute_PDF_frame n (g, fr)).2.1 = g ∧
      (CGaussian.compute_PDF_frame n (g, fr)).2.2.point = fr.point := by
  simp only [CGaussian.compute_PDF_frame, CGaussian.compute_PDF, Method.bind_eq, Method.seq,
    Method.get, ASSERT, Method.lift, Method.ret, Method.raise, Method.assign]
  by_cases h : n = g.m_dim
  · simp only [h, decide_True, if_true, Method.ret]
    by_cases h0 : g.m_dim < 0
    · simp only [new_memcpy, if_pos h0]
      exact ⟨trivial, trivial, trivial⟩
    · have hr : new_memcpy_sized [] g.m_dim 0 =
          Except.ok (List.replicate g.m_dim.toNat 0) := by
        unfold new_memcpy_sized
        rw [if_neg h0, if_neg (by simp)]
        simp
      cases new_memcpy fr.point g.m_dim with
      | error e => exact ⟨rfl, rfl, rfl⟩
      | ok a =>
        simp only [hr]
        cases difference_loop g.m_mean g.m_dim.toNat 0 a with
        | error e => exact ⟨rfl, rfl, rfl⟩
        | ok b =>
          simp only []
          cases cblas_dsymv g.m_dim.toNat (-1.0 / 2.0) g.m_cov_inverse b with
          | error e => exact ⟨rfl, rfl, rfl⟩
          | ok c =>
            simp only []
            cases cblas_ddot g.m_dim.toNat b c with
            | error e => exact ⟨rfl, rfl, rfl⟩
            | ok v => exact ⟨rfl, rfl, rfl⟩
  · simp only [h, decide_False, Method.raise]
    exact ⟨rfl, rfl, rfl⟩

/-- C11: for every model state, every caller's buffer `point` and every
`point_len`, whatever the two local buffers hold, `compute_PDF` leaves the
fields `m_mean`, `m_cov`, `m_cov_inverse`, `m_constant` and `m_dim` (the whole
object) and the caller's buffer `point` as they were, whether it returns or
raises; its outcome is that of `compute_PDF` on the point, and a second call on
the memory it leaves has the same outcome. -/
theorem compute_PDF_no_mutation (point difference result : List ℝ) (point_len : Int)
    (g : CGaussian) :
    (CGaussian.compute_PDF_frame point_len (g, ⟨point, difference, result⟩)).2.1 = g ∧
      (CGaussian.compute_PDF_frame point_len (g, ⟨point, difference, result⟩)).2.2.point =
        point ∧
      (CGaussian.compute_PDF_frame point_len (g, ⟨point, difference, result⟩)).1 =
        (CGaussian.compute_PDF point point_len g).1 ∧
      (CGaussian.compute_PDF_frame point_len
          (CGaussian.compute_PDF_frame point_len (g, ⟨point, difference, result⟩)).2).1 =
        (CGaussian.compute_PDF_frame point_len (g, ⟨point, difference, result⟩)).1 ∧
      (CGaussian.compute_PDF point point_len g).2 = g ∧
      (CGaussian.compute_PDF point point_len g).2.m_mean = g.m_mean ∧
      (CGaussian.compute_PDF point point_len g).2.m_cov = g.m_cov ∧
      (CGaussian.compute_PDF point point_len g).2.m_cov_inverse = g.m_cov_inverse ∧
      (CGaussian.compute_PDF point point_len g).2.m_constant = g.m_constant ∧
      (CGaussian.compute_PDF point point_len g).2.m_dim = g.m_dim ∧
      CGaussian.compute_PDF point point_len (CGaussian.compute_PDF point point_len g).2 =
        CGaussian.compute_PDF point point_len g := by
  have h := compute_PDF_state point point_len g
  obtain ⟨h1, h2, h3⟩ := compute_PDF_frame_spec point_len g ⟨point, difference, result⟩
  have h4 := compute_PDF_frame_spec point_len
    (CGaussian.compute_PDF_frame point_len (g, ⟨point, difference, result⟩)).2.1
    (CGaussian.compute_PDF_frame point_len (g, ⟨point, difference, result⟩)).2.2
  refine ⟨h2, h3, h1, ?_, h, ?_, ?_, ?_, ?_, ?_, ?_⟩
  · rw [h4.1, h2, h3, h1]
  all_goals rw [h]

/-- C12, amended: for every `dim ≥ 1` whose square is an `int32_t`
(`dim*dim < 2^31`), mean of `dim` entries and covariance of `dim*dim` entries,
positive definite or not, `init` returns and the stored
mean and the stored covariance are the supplied ones entry for entry, and the
dimension is `dim`. -/
theorem init_stores_inputs (d : Nat) (_hd : 1 ≤ d) (hfit : d * d < 2 ^ 31)
    (mean cov : List ℝ)
    (hm : mean.length = d) (hc : cov.length = d * d) (g0 : CGaussian) :
    ∃ g, CGaussian.init mean cov (d : Int) g0 = (Except.ok (), g) ∧
      g.m_mean = mean ∧ g.m_cov = cov ∧ g.m_dim = (d : Int) ∧
      (∀ k, k < d → g.m_mean[k]? = mean[k]?) ∧
      (∀ k, k < d * d → g.m_cov[k]? = cov[k]?) := by
  obtain ⟨K, B, _, hinit⟩ := init_total d hfit mean cov hm hc
  exact ⟨_, hinit g0, rfl, rfl, rfl, fun _ _ => rfl, fun _ _ => rfl⟩

/-- C12 amended, at `dim = 2`, mean `[1, -1]` and the covariance buffer `[1, 2, 3, 4]`,
which is not symmetric. -/
theorem init_stores_inputs_witness :
    ∃ g, CGaussian.init mean2 [1, 2, 3, 4] ((2 : Nat) : Int) raw = (Except.ok (), g) ∧
      g.m_mean = mean2 ∧ g.m_cov = [1, 2, 3, 4] ∧ g.m_dim = ((2 : Nat) : Int) ∧
      (∀ k, k < 2 → g.m_mean[k]? = mean2[k]?) ∧
      (∀ k, k < 2 * 2 → g.m_cov[k]? = ([1, 2, 3, 4] : List ℝ)[k]?) :=
  init_stores_inputs 2 (by norm_num) (by norm_num) mean2 [1, 2, 3, 4] rfl rfl raw

/-- C14: for every model state, parameter index and example index,
`get_log_derivative` returns 0 and leaves the state, the associated feature
source included, as it is; the value does not depend on the state. -/
theorem get_log_derivative_zero (g : CGaussian) (num_param num_example : Int) :
    CGaussian.get_log_derivative num_param num_example g = (Except.ok 0, g) ∧
      (CGaussian.get_log_derivative num_param num_example g).2.m_data = g.m_data ∧
      ∀ g2 : CGaussian, (CGaussian.get_log_derivative num_param num_example g2).1 =
        (CGaussian.get_log_derivative num_param num_example g).1 :=
  ⟨rfl, rfl, fun _ => rfl⟩

theorem symLower_congr (d : Nat) (A A2 : List ℝ)
    (h : ∀ i j, j ≤ i → i < d → entries d A2 i j = entries d A i j) :
    symLower d A2 = symLower d A := by
  ext i j
  show (if (j : Nat) ≤ i then entries d A2 i j else entries d A2 j i) =
    if (j : Nat) ≤ i then entries d A i j else entries d A j i
  by_cases hji : (j : Nat) ≤ i
  · rw [if_pos hji, if_pos hji, h i j hji i.2]
  · rw [if_neg hji, if_neg hji, h j i (by omega) j.2]

/-- C15: for every model state of dimension `d` (mean of `d` entries, inverse
buffer `A` of `d*d` entries, constant `c`) and every point `x` of length `d`,
`compute_PDF(x, d)` returns `c * exp(dot(diff, r))` with `diff = x - mean` and
`r = -1/2 * Sym(A) * diff`, `Sym(A)` being the symmetric matrix with the lower
triangle of `A`; replacing `A` by a buffer with the same entries on and below
the diagonal does not change the value. -/
theorem compute_PDF_formula (g : CGaussian) (d : Nat) (hd : g.m_dim = (d : Int))
    (hmean : g.m_mean.length = d) (hci : g.m_cov_inverse.length = d * d)
    (x : List ℝ) (hx : x.length = d) :
    CGaussian.compute_PDF x (d : Int) g =
      (Except.ok (g.m_constant * Real.exp (Matrix.dotProduct (toVec d x - toVec d g.m_mean)
        ((-1 / 2 : ℝ) • (symLower d g.m_cov_inverse).mulVec (toVec d x - toVec d g.m_mean)))),
       g) ∧
      ∀ A2 : List ℝ, A2.length = d * d →
        (∀ i j, j ≤ i → i < d → entries d A2 i j = entries d g.m_cov_inverse i j) →
        (CGaussian.compute_PDF x (d : Int) { g with m_cov_inverse := A2 }).1 =
          (CGaussian.compute_PDF x (d : Int) g).1 := by
  have h1 := compute_PDF_spec g d hd (by omega) (by omega) x (by omega)
  refine ⟨h1, ?_⟩
  intro A2 hA2 hlow
  have h2 := compute_PDF_spec { g with m_cov_inverse := A2 } d hd (by simp only; omega)
    (by simp only; omega) x (by omega)
  rw [h1, h2]
  simp only [symLower_congr d g.m_cov_inverse A2 hlow]

/-- C15, at a model of dimension 3 and the point `[1, 2, 3]`. -/
theorem compute_PDF_formula_witness :
    CGaussian.compute_PDF [1, 2, 3] ((3 : Nat) : Int) model3 =
      (Except.ok (model3.m_constant * Real.exp
        (Matrix.dotProduct (toVec 3 [1, 2, 3] - toVec 3 model3.m_mean)
          ((-1 / 2 : ℝ) • (symLower 3 model3.m_cov_inverse).mulVec
            (toVec 3 [1, 2, 3] - toVec 3 model3.m_mean)))), model3) ∧
      ∀ A2 : List ℝ, A2.length = 3 * 3 →
        (∀ i j, j ≤ i → i < 3 → entries 3 A2 i j = entries 3 model3.m_cov_inverse i j) →
        (CGaussian.compute_PDF [1, 2, 3] ((3 : Nat) : Int)
          { model3 with m_cov_inverse := A2 }).1 =
          (CGaussian.compute_PDF [1, 2, 3] ((3 : Nat) : Int) model3).1 :=
  compute_PDF_formula model3 3 rfl rfl rfl [1, 2, 3] rfl

/-- What `get_log_model_parameter` reads is the entry `param_site` names. -/
theorem get_log_model_parameter_site (g : CGaussian) (k : Int) :
    CGaussian.get_log_model_parameter k g =
      (match CGaussian.param_site g.m_dim k with
        | Sum.inl i => Except.map CMath_log (read g.m_mean i)
        | Sum.inr j => Except.map CMath_log (read g.m_cov j), g) := by
  unfold CGaussian.param_site
  by_cases hk : k < g.m_dim
  · simp only [CGaussian.get_log_model_parameter, Method.bind_eq, Method.seq, Method.get,
      if_pos hk, Method.lift, Method.ret]
    cases read g.m_mean k with
    | error e => rfl
    | ok v => rfl
  · simp only [CGaussian.get_log_model_parameter, Method.bind_eq, Method.seq, Method.get,
      if_neg hk, Method.lift, Method.ret]
    cases read g.m_cov (k - g.m_dim) with
    | error e => rfl
    | ok v => rfl

theorem read_ok (buf : List ℝ) (k : Int) (h0 : 0 ≤ k) (h1 : k < (buf.length : Int)) :
    ∃ v, read buf k = Except.ok v := by
  have hlt : k.toNat < buf.length := by omega
  refine ⟨buf[k.toNat], ?_⟩
  unfold read
  rw [if_neg (not_lt.2 h0), List.getElem?_eq_getElem hlt]

/-- C16: on a model of dimension `d ≥ 1` with buffers of the sizes of its
dimension, `get_log_model_parameter(k)` reads the entry `param_site d k`;
for every `k` with `0 ≤ k < d*(d+1)` that read is in bounds, `m_mean[k]` with
`k < d` or `m_cov[k-d]` with `k-d < d*d`; every mean entry and every covariance
entry is read by exactly one such `k`; and `d*(d+1)` is what
`get_num_model_parameters` reports when it is representable in 32 bits. -/
theorem param_site_exhaustive (g : CGaussian) (hs : g.Sized) (hd : 1 ≤ g.m_dim) :
    (∀ k, CGaussian.get_log_model_parameter k g =
      (match CGaussian.param_site g.m_dim k with
        | Sum.inl i => Except.map CMath_log (read g.m_mean i)
        | Sum.inr j => Except.map CMath_log (read g.m_cov j), g)) ∧
    (∀ k, 0 ≤ k → k < g.m_dim * (g.m_dim + 1) →
      (k < g.m_dim ∧ CGaussian.param_site g.m_dim k = Sum.inl k ∧
          k < (g.m_mean.length : Int) ∧ ∃ v, read g.m_mean k = Except.ok v) ∨
        (g.m_dim ≤ k ∧ CGaussian.param_site g.m_dim k = Sum.inr (k - g.m_dim) ∧
          k - g.m_dim < g.m_dim * g.m_dim ∧ k - g.m_dim < (g.m_cov.length : Int) ∧
          ∃ v, read g.m_cov (k - g.m_dim) = Except.ok v)) ∧
    (∀ i, 0 ≤ i → i < (g.m_mean.length : Int) →
      ∃! k, 0 ≤ k ∧ k < g.m_dim * (g.m_dim + 1) ∧
        CGaussian.param_site g.m_dim k = Sum.inl i) ∧
    (∀ j, 0 ≤ j → j < (g.m_cov.length : Int) →
      ∃! k, 0 ≤ k ∧ k < g.m_dim * (g.m_dim + 1) ∧
        CGaussian.param_site g.m_dim k = Sum.inr j) ∧
    (g.m_dim * (g.m_dim + 1) < 2 ^ 31 →
      CGaussian.get_num_model_parameters g = (Except.ok (g.m_dim * (g.m_dim + 1)), g)) := by
  obtain ⟨hd0, hmean, hcov, _⟩ := hs
  have hnat : ((g.m_dim.toNat : Nat) : Int) = g.m_dim := Int.toNat_of_nonneg hd0
  have hmlen : (g.m_mean.length : Int) = g.m_dim := by rw [hmean, hnat]
  have hclen : (g.m_cov.length : Int) = g.m_dim * g.m_dim := by
    rw [hcov]; push_cast; rw [hnat]
  have hexp : g.m_dim * (g.m_dim + 1) = g.m_dim * g.m_dim + g.m_dim := by ring
  have hsq : 0 ≤ g.m_dim * g.m_dim := mul_nonneg hd0 hd0
  refine ⟨get_log_model_parameter_site g, ?_, ?_, ?_, ?_⟩
  · intro k h0 h1
    by_cases hk : k < g.m_dim
    · left
      refine ⟨hk, ?_, by rw [hmlen]; exact hk, read_ok _ _ h0 (by rw [hmlen]; exact hk)⟩
      unfold CGaussian.param_site
      rw [if_pos hk]
    · right
      have hk2 : g.m_dim ≤ k := not_lt.1 hk
      have hlt : k - g.m_dim < g.m_dim * g.m_dim := by linarith
      refine ⟨hk2, ?_, hlt, by rw [hclen]; exact hlt,
        read_ok _ _ (by linarith) (by rw [hclen]; exact hlt)⟩
      unfold CGaussian.param_site
      rw [if_neg hk]
  · intro i h0 h1
    rw [hmlen] at h1
    refine ⟨i, ⟨h0, by linarith, ?_⟩, ?_⟩
    · unfold CGaussian.param_site
      rw [if_pos h1]
    · rintro k ⟨_, _, hk⟩
      unfold CGaussian.param_site at hk
      by_cases hlt : k < g.m_dim
      · rw [if_pos hlt] at hk
        exact Sum.inl.inj hk
      · rw [if_neg hlt] at hk
        exact absurd hk (by simp)
  · intro j h0 h1
    rw [hclen] at h1
    have hnot : ¬ (j + g.m_dim < g.m_dim) := by linarith
    refine ⟨j + g.m_dim, ⟨by linarith, by linarith, ?_⟩, ?_⟩
    · unfold CGaussian.param_site
      rw [if_neg hnot]
      congr 1
      ring
    · rintro k ⟨_, _, hk⟩
      unfold CGaussian.param_site at hk
      by_cases hlt : k < g.m_dim
      · rw [if_pos hlt] at hk
        exact absurd hk (by simp)
      · rw [if_neg hlt] at hk
        have := Sum.inr.inj hk
        linarith
  · intro hrep
    have h1 : g.m_dim + 1 ≤ g.m_dim * (g.m_dim + 1) := by nlinarith
    simp only [CGaussian.get_num_model_parameters, Method.bind_eq, Method.seq, Method.get,
      Method.ret]
    rw [wrap32_eq (g.m_dim + 1) (by linarith) (by linarith),
      wrap32_eq _ (by linarith) hrep]

/-- C16, at a model of dimension 3. -/
theorem param_site_exhaustive_witness :
    (∀ k, CGaussian.get_log_model_parameter k model3 =
      (match CGaussian.param_site model3.m_dim k with
        | Sum.inl i => Except.map CMath_log (read model3.m_mean i)
        | Sum.inr j => Except.map CMath_log (read model3.m_cov j), model3)) ∧
    (∀ k, 0 ≤ k → k < model3.m_dim * (model3.m_dim + 1) →
      (k < model3.m_dim ∧ CGaussian.param_site model3.m_dim k = Sum.inl k ∧
          k < (model3.m_mean.length : Int) ∧ ∃ v, read model3.m_mean k = Except.ok v) ∨
        (model3.m_dim ≤ k ∧ CGaussian.param_site model3.m_dim k = Sum.inr (k - model3.m_dim) ∧
          k - model3.m_dim < model3.m_dim * model3.m_dim ∧
          k - model3.m_dim < (model3.m_cov.length : Int) ∧
          ∃ v, read model3.m_cov (k - model3.m_dim) = Except.ok v)) ∧
    (∀ i, 0 ≤ i → i < (model3.m_mean.length : Int) →
      ∃! k, 0 ≤ k ∧ k < model3.m_dim * (model3.m_dim + 1) ∧
        CGaussian.param_site model3.m_dim k = Sum.inl i) ∧
    (∀ j, 0 ≤ j → j < (model3.m_cov.length : Int) →
      ∃! k, 0 ≤ k ∧ k < model3.m_dim * (model3.m_dim + 1) ∧
        CGaussian.param_site model3.m_dim k = Sum.inr j) ∧
    (model3.m_dim * (model3.m_dim + 1) < 2 ^ 31 →
      CGaussian.get_num_model_parameters model3 =
        (Except.ok (model3.m_dim * (model3.m_dim + 1)), model3)) :=
  param_site_exhaustive model3 ⟨by decide, rfl, rfl, rfl⟩ (by decide)

/-- C3 fails as stated: at the dimension 46341 and the identity covariance
`init` raises before the factorization, so no `m_constant` is computed: the
field keeps the value it had. -/
theorem init_constant_fails_at_46341 :
    (toMatrix 46341 big_cov).PosDef ∧
    (CGaussian.init big_mean big_cov 46341 raw).1 = Except.error Fault.bad_alloc ∧
    (CGaussian.init big_mean big_cov 46341 raw).2.m_constant = raw.m_constant ∧
    ¬ ∃ F g, clapack_dpotrf 46341 big_cov = Except.ok (0, F) ∧
      CGaussian.init big_mean big_cov 46341 raw = (Except.ok (), g) ∧
      g.m_constant = (1 / ∏ i in Finset.range 46341, F.getD (i * 46341 + i) 0) *
        (2 * Real.pi) ^ (-((46341 : Nat) : ℝ) / 2) := by
  refine ⟨big_cov_posDef, ?_, ?_, ?_⟩
  · rw [big_init_fails]
  · rw [big_init_fails]
  · rintro ⟨F, g, _, h, _⟩
    exact big_init_not_ok raw g h

theorem train_overflow (src : CFeatures) (hdot : src.has_property_FP_DOT = true)
    (hd : src.dim = 46341) (hm : src.mean.length = 46341) (g0 : CGaussian) :
    CGaussian.train (some src) g0 =
      (Except.error Fault.bad_alloc, { g0 with m_data := some src, m_mean := src.mean }) := by
  have hinit := fun g => init_overflow src.mean src.cov hm g
  simp only [CGaussian.train, Method.bind_eq, Method.seq, hdot, Bool.not_true,
    CGaussian.set_data, Method.assign, Method.get, Method.ret, Method.pure_eq]
  unfold Method.seq
  simp only [Method.ret, Method.assign, Method.get, Bool.false_eq_true, if_false, hd, hinit]

/-- C5 fails as stated: on a source with `FP_DOT` reporting the zero mean, the
identity covariance and the dimension 46341, `train` does not return `true`:
it raises with `init`, the source associated and `m_mean` assigned. -/
theorem train_fails_at_46341 :
    big_source.has_property_FP_DOT = true ∧ big_source.mean.length = 46341 ∧
    big_source.cov.length = 46341 * 46341 ∧ big_source.dim = 46341 ∧
    CGaussian.train (some big_source) raw =
      (Except.error Fault.bad_alloc,
        { raw with m_data := some big_source, m_mean := big_source.mean }) ∧
    ¬ ∃ g, CGaussian.train (some big_source) raw = (Except.ok true, g) := by
  have hdot : big_source.has_property_FP_DOT = true := by simp only [big_source]
  have hm : big_source.mean = big_mean := by simp only [big_source]
  have hc : big_source.cov = big_cov := by simp only [big_source]
  have hd : big_source.dim = 46341 := by simp only [big_source]
  have hml : big_source.mean.length = 46341 := by rw [hm]; exact big_mean_length
  have hcl : big_source.cov.length = 46341 * 46341 := by rw [hc]; exact big_cov_length
  have htrain := train_overflow big_source hdot hd hml raw
  refine ⟨hdot, hml, hcl, hd, htrain, ?_⟩
  rintro ⟨g, h⟩
  rw [htrain] at h
  exact absurd (congrArg Prod.fst h) (by simp)

/-- C12 fails as stated: at `dim = 46341`, a mean of 46341 entries and a
covariance of `46341*46341` entries, `init` raises at the allocation of
`m_cov`; the stored covariance and the dimension are not the supplied ones. -/
theorem init_stores_inputs_fails_at_46341 :
    big_mean.length = 46341 ∧ big_cov.length = 46341 * 46341 ∧
    (CGaussian.init big_mean big_cov 46341 raw).1 = Except.error Fault.bad_alloc ∧
    (CGaussian.init big_mean big_cov 46341 raw).2.m_cov = [] ∧
    (CGaussian.init big_mean big_cov 46341 raw).2.m_dim = 0 ∧
    ¬ ∃ g, CGaussian.init big_mean big_cov 46341 raw = (Except.ok (), g) ∧
      g.m_mean = big_mean ∧ g.m_cov = big_cov ∧ g.m_dim = 46341 := by
  refine ⟨big_mean_length, big_cov_length, ?_, ?_, ?_, ?_⟩
  · rw [big_init_fails]
  · rw [big_init_fails]; rfl
  · rw [big_init_fails]; rfl
  · rintro ⟨g, h, _⟩
    exact big_init_not_ok raw g h

end Shogun
